import Mathlib

/-!
Verification of the A* pathfinder in `main.py`.

The program state that the algorithm reads and writes is shallowly embedded:

* a cell is identified by its immutable `(row, col)` coordinate (`Pos`);
* a cell's mutable state is its color (`Pos → Color`), exactly as in the
  source, which encodes Empty/Start/End/Barrier/Open/Closed/Path as RGB
  triples;
* the per-run search state (`AState`) carries the counter, the open set,
  the `came_from` / `g_score` / `f_score` dictionaries (total functions
  with `none` playing the role of `float("inf")` / absent key), the
  membership hash, the colors, and an event trace recording each call to
  the drawing callback and each cell marking, in order;
* `queue.PriorityQueue` holds `(f_score, count, node)` triples; since
  `Node.__lt__` always returns `False` and every queued triple carries a
  distinct `count`, Python's tuple comparison orders entries strictly by
  the lexicographic key `(f_score, count)` and `get` returns the least
  entry.  The queue is modelled as the list of live entries with
  `popMin` removing the entry with the least key;
* the `while` loops are given explicit fuel; `a_star_algorithm fuel …`
  returns `none` when the fuel is exhausted before the loop exits.
-/

namespace AStar

/-- A grid position, `(row, col)`. -/
abbrev Pos := Nat × Nat

/-- An RGB triple; the source encodes every cell state as its color. -/
abbrev Color := Nat × Nat × Nat

/-- Node has been considered (closed). -/
def RED : Color := (255, 0, 0)

/-- Node is open for consideration. -/
def GREEN : Color := (0, 255, 0)

/-- Default/untouched node. -/
def WHITE : Color := (255, 255, 255)

/-- Barrier node, cannot be used. -/
def BLACK : Color := (0, 0, 0)

/-- Node is part of the final path. -/
def PURPLE : Color := (128, 0, 128)

/-- Start node. -/
def PINK : Color := (255, 0, 255)

/-- End node. -/
def BLUE : Color := (0, 0, 128)

/-- `Node.is_closed`. -/
def is_closed (color : Pos → Color) (p : Pos) : Bool := color p = RED

/-- `Node.is_open`. -/
def is_open (color : Pos → Color) (p : Pos) : Bool := color p = GREEN

/-- `Node.is_barrier`. -/
def is_barrier (color : Pos → Color) (p : Pos) : Bool := color p = BLACK

/-- `Node.is_start`. -/
def is_start (color : Pos → Color) (p : Pos) : Bool := color p = PINK

/-- `Node.is_end`. -/
def is_end (color : Pos → Color) (p : Pos) : Bool := color p = BLUE

/-- `Node.update_neighbours`: the list of passable neighbours of `p`,
rebuilt from the four orthogonal directions in source order
(down, up, right, left), skipping out-of-bounds rows/columns and any
neighbour currently marked Barrier. -/
def update_neighbours (totalRows : Nat) (color : Pos → Color) (p : Pos) : List Pos :=
  (if p.1 < totalRows - 1 ∧ is_barrier color (p.1 + 1, p.2) = false
    then [(p.1 + 1, p.2)] else []) ++
  (if 0 < p.1 ∧ is_barrier color (p.1 - 1, p.2) = false
    then [(p.1 - 1, p.2)] else []) ++
  (if p.2 < totalRows - 1 ∧ is_barrier color (p.1, p.2 + 1) = false
    then [(p.1, p.2 + 1)] else []) ++
  (if 0 < p.2 ∧ is_barrier color (p.1, p.2 - 1) = false
    then [(p.1, p.2 - 1)] else [])

/-- `heuristic`: Manhattan distance between two `(row, col)` coordinates. -/
def heuristic (p1 p2 : Pos) : Nat :=
  ((p1.1 : Int) - (p2.1 : Int)).natAbs + ((p1.2 : Int) - (p2.2 : Int)).natAbs

/-- Trace events: one per call of the drawing callback and one per cell
marking performed by the search (instrumentation of the observable side
effects; the algorithm itself never reads the trace). -/
inductive Event where
  | drawEv : Event
  | openedEv : Pos → Event
  | closedEv : Pos → Event
  | pathEv : Pos → Event
  | endEv : Pos → Event
deriving DecidableEq, Repr

/-- A live entry of the priority queue: `(f_score, count, node)`. -/
abbrev Ent := Nat × Nat × Pos

/-- The priority key of an entry.  `Node.__lt__` always returns `False`,
and counts are pairwise distinct, so Python's tuple order on queue
entries is exactly the lexicographic order on this key. -/
def entKey (e : Ent) : Nat × Nat := (e.1, e.2.1)

/-- Strict lexicographic order on priority keys. -/
def keyLt (a b : Nat × Nat) : Bool :=
  decide (a.1 < b.1) || (decide (a.1 = b.1) && decide (a.2 < b.2))

/-- The entry with the least key (the first such, but keys of live
entries are pairwise distinct in every reachable state). -/
def better (a b : Ent) : Ent := if keyLt (entKey b) (entKey a) then b else a

/-- Least entry of a queue, or `none` when it is empty. -/
def findMin : List Ent → Option Ent
  | [] => none
  | x :: xs => some (xs.foldl better x)

/-- `PriorityQueue.get`: remove and return the least entry. -/
def popMin (q : List Ent) : Option (Ent × List Ent) :=
  match findMin q with
  | none => none
  | some m => some (m, q.erase m)

/-- The mutable state read and written by one run of `a_star_algorithm`.
`gScore p = none` models `g_score[p] == float("inf")`, and
`cameFrom p = none` models `p not in came_from`. -/
structure AState where
  count : Nat
  openSet : List Ent
  cameFrom : Pos → Option Pos
  gScore : Pos → Option Nat
  fScore : Pos → Option Nat
  openHash : List Pos
  color : Pos → Color
  events : List Event

/-- Comparison of scores where `none` is `float("inf")`:
`inf < x` is false and `v < inf` is true. -/
def optLt : Option Nat → Option Nat → Bool
  | none, _ => false
  | some _, none => true
  | some a, some b => decide (a < b)

/-- The body of `for neighbour in current.neighbours` in
`a_star_algorithm`: tentative score, strict-improvement test, update of
`came_from` / `g_score` / `f_score`, and insertion into the frontier
(with `make_open`) when the neighbour is not already a member. -/
def relax (endP cur : Pos) (s : AState) (nb : Pos) : AState :=
  match s.gScore cur with
  | none => s
  | some gc =>
    let temp := gc + 1
    if optLt (some temp) (s.gScore nb) then
      let fnb := temp + heuristic nb endP
      let s1 : AState := { s with
        cameFrom := fun p => if p = nb then some cur else s.cameFrom p,
        gScore := fun p => if p = nb then some temp else s.gScore p,
        fScore := fun p => if p = nb then some fnb else s.fScore p }
      if nb ∈ s1.openHash then s1
      else { s1 with
        count := s1.count + 1,
        openSet := (fnb, s1.count + 1, nb) :: s1.openSet,
        openHash := nb :: s1.openHash,
        color := fun p => if p = nb then GREEN else s1.color p,
        events := s1.events ++ [Event.openedEv nb] }
    else s

/-- `reconstruct_path`: walk `came_from` from `cur`, marking every
visited cell that is not the start as Path and drawing after each step.
The fuel only bounds the walk; in every run of the source the
`came_from` chain is finite and the fuel passed in is sufficient. -/
def reconstruct_path : Nat → AState → Pos → AState
  | 0, s, _ => s
  | fuel + 1, s, cur =>
    match s.cameFrom cur with
    | none => s
    | some prev =>
      let s1 := if is_start s.color prev then s else
        { s with color := fun p => if p = prev then PURPLE else s.color p,
                 events := s.events ++ [Event.pathEv prev] }
      let s2 := { s1 with events := s1.events ++ [Event.drawEv] }
      reconstruct_path fuel s2 prev

/-- Result of one iteration of the `while not open_set.empty()` loop. -/
inductive StepOut where
  | finished : Bool → AState → StepOut
  | next : AState → StepOut

/-- One iteration of the main loop of `a_star_algorithm`: pop the least
entry, remove it from the hash; on the end cell reconstruct the path,
re-mark the end and finish with `True`; otherwise relax every listed
neighbour of the popped cell, draw, and mark the cell Closed unless it
is the start. An empty queue finishes with `False`. -/
def astarStep (rfuel : Nat) (nbrs : Pos → List Pos) (startP endP : Pos) (s : AState) :
    StepOut :=
  match popMin s.openSet with
  | none => .finished false s
  | some (e, rest) =>
    let cur := e.2.2
    let s1 := { s with openSet := rest, openHash := s.openHash.erase cur }
    if cur = endP then
      let s2 := reconstruct_path rfuel s1 endP
      let s3 := { s2 with color := fun p => if p = endP then BLUE else s2.color p,
                          events := s2.events ++ [Event.endEv endP] }
      .finished true s3
    else
      let s2 := (nbrs cur).foldl (relax endP cur) s1
      let s3 := { s2 with events := s2.events ++ [Event.drawEv] }
      let s4 := if cur = startP then s3 else
        { s3 with color := fun p => if p = cur then RED else s3.color p,
                  events := s3.events ++ [Event.closedEv cur] }
      .next s4

/-- The main loop, with explicit fuel. -/
def astarLoop (rfuel : Nat) (nbrs : Pos → List Pos) (startP endP : Pos) :
    Nat → AState → Option (Bool × AState)
  | 0, _ => none
  | fuel + 1, s =>
    match astarStep rfuel nbrs startP endP s with
    | .finished ok s1 => some (ok, s1)
    | .next s1 => astarLoop rfuel nbrs startP endP fuel s1

/-- The search state set up at the top of `a_star_algorithm`: entry
`(0, 0, start)` in the queue, `g_score[start] = 0`,
`f_score[start] = heuristic(start, end)`, hash containing start. -/
def initState (color0 : Pos → Color) (startP endP : Pos) : AState :=
  { count := 0
    openSet := [(0, 0, startP)]
    cameFrom := fun _ => none
    gScore := fun p => if p = startP then some 0 else none
    fScore := fun p => if p = startP then some (heuristic startP endP) else none
    openHash := [startP]
    color := color0
    events := [] }

/-- `a_star_algorithm(draw, grid, start, end)`: run the main loop from
the initial search state.  `nbrs` is the `neighbours` attribute of each
node, recomputed by the caller before the run; `color0` is the cell
state at the start of the run. -/
def a_star_algorithm (fuel : Nat) (nbrs : Pos → List Pos) (color0 : Pos → Color)
    (startP endP : Pos) : Option (Bool × AState) :=
  astarLoop fuel nbrs startP endP fuel (initState color0 startP endP)

/-- Length of the `came_from` chain walked from `cur` (the number of
iterations `reconstruct_path` performs), bounded by the fuel. -/
def chainLen : Nat → (Pos → Option Pos) → Pos → Nat
  | 0, _, _ => 0
  | fuel + 1, cf, cur =>
    match cf cur with
    | none => 0
    | some prev => chainLen fuel cf prev + 1

/-- Modelled from the spec: the repository has no BFS; §8.1 of the spec
defines the true shortest path length as computed "by brute-force BFS on
small grids".  Level-by-level BFS frontier expansion; `visited` always
contains every discovered cell. -/
def bfsAux (nbrs : Pos → List Pos) (endP : Pos) :
    Nat → List Pos → List Pos → Nat → Option Nat
  | 0, _, _, _ => none
  | fuel + 1, frontier, visited, d =>
    if endP ∈ frontier then some d
    else
      match (((frontier.foldr (fun p acc => nbrs p ++ acc) []).filter
          (fun q => decide (q ∉ visited))).eraseDups : List Pos) with
      | [] => none
      | q :: qs =>
        bfsAux nbrs endP fuel (q :: qs) (visited ++ q :: qs) (d + 1)

/-- Modelled from the spec: breadth-first search distance from `startP`
to `endP` in the neighbour graph, `none` when unreachable (or out of
fuel). -/
def bfs (fuel : Nat) (nbrs : Pos → List Pos) (startP endP : Pos) : Option Nat :=
  bfsAux nbrs endP fuel [startP] [startP] 0

/-- All positions of an `n × n` grid. -/
def cellsList (n : Nat) : List Pos :=
  (List.range n).foldr (fun r acc => ((List.range n).map (fun c => (r, c))) ++ acc) []

/-- Two grid cells are orthogonally adjacent (down, up, right or left). -/
def orthAdj (p q : Pos) : Prop :=
  (q.1 = p.1 + 1 ∧ q.2 = p.2) ∨ (p.1 = q.1 + 1 ∧ q.2 = p.2) ∨
  (q.2 = p.2 + 1 ∧ q.1 = p.1) ∨ (p.2 = q.2 + 1 ∧ q.1 = p.1)

/-- `IsGridPath a b l`: `l` lists the successive cells of a 4-directional
grid path from `a` to `b` (excluding `a` itself), so `l.length` is the
number of unit-cost steps of the path. -/
def IsGridPath : Pos → Pos → List Pos → Prop
  | a, b, [] => a = b
  | a, b, q :: rest => orthAdj a q ∧ IsGridPath q b rest

/-- The state of one `Node` row of the grid that `update_neighbours`
reads and writes: total size, the color map, and the stored
`neighbours` attribute of every node. -/
structure GridState where
  totalRows : Nat
  color : Pos → Color
  neighbours : Pos → List Pos

/-- Calling `node.update_neighbours(grid)` on the node at `p`: store the
recomputed adjacency list of `p`; no other node state is touched. -/
def nodeUpdateNeighbours (g : GridState) (p : Pos) : GridState :=
  { g with neighbours := fun q =>
      if q = p then update_neighbours g.totalRows g.color p else g.neighbours q }

/-- The 12 × 12 grid exhibiting the suboptimality of the implementation:
barriers, start `(0, 1)`, end `(11, 4)`. -/
def cexBarriers : List Pos :=
  [(4, 1), (4, 2), (6, 0), (6, 3), (8, 2), (10, 3), (10, 4), (11, 5)]

/-- Start cell of the counterexample grid. -/
def cexStart : Pos := (0, 1)

/-- End cell of the counterexample grid. -/
def cexEnd : Pos := (11, 4)

/-- Colors of the counterexample grid before the run. -/
def cexColor : Pos → Color := fun p =>
  if p = cexStart then PINK else if p = cexEnd then BLUE
  else if p ∈ cexBarriers then BLACK else WHITE

/-- Up-to-date neighbour lists of the counterexample grid. -/
def cexNbrs : Pos → List Pos := fun p => update_neighbours 12 cexColor p

/-- A 2 × 2 open witness grid: start `(0, 0)`, end `(1, 1)`, no barrier. -/
def w2color : Pos → Color := fun p =>
  if p = (0, 0) then PINK else if p = (1, 1) then BLUE else WHITE

/-- Up-to-date neighbour lists of the open witness grid. -/
def w2nbrs : Pos → List Pos := fun p => update_neighbours 2 w2color p

/-- A 2 × 2 witness grid whose start is fully enclosed by barriers. -/
def wEncColor : Pos → Color := fun p =>
  if p = (0, 0) then PINK else if p = (1, 1) then BLUE else BLACK

/-- Up-to-date neighbour lists of the enclosed witness grid. -/
def wEncNbrs : Pos → List Pos := fun p => update_neighbours 2 wEncColor p

/-- The state after a purely score-improving relaxation of `nb` from
`cur` (the neighbour was already a frontier member). -/
def scoreUpd (endP cur : Pos) (s : AState) (nb : Pos) (gc : Nat) : AState :=
  { s with
    cameFrom := fun p => if p = nb then some cur else s.cameFrom p,
    gScore := fun p => if p = nb then some (gc + 1) else s.gScore p,
    fScore := fun p => if p = nb then some (gc + 1 + heuristic nb endP) else s.fScore p }

/-- The state after a relaxation of `nb` from `cur` that also inserts
`nb` into the frontier and marks it Open. -/
def insUpd (endP cur : Pos) (s : AState) (nb : Pos) (gc : Nat) : AState :=
  { scoreUpd endP cur s nb gc with
    count := s.count + 1,
    openSet := (gc + 1 + heuristic nb endP, s.count + 1, nb) :: s.openSet,
    openHash := nb :: s.openHash,
    color := fun p => if p = nb then GREEN else s.color p,
    events := s.events ++ [Event.openedEv nb] }

/-- The state reached by one non-final loop iteration that popped the
entry `e` (mirrors the else-branch of the loop body). -/
def stepNextState (nbrs : Pos → List Pos) (startP endP : Pos) (s : AState)
    (e : Ent) (rest : List Ent) : AState :=
  let s1 : AState := { s with openSet := rest, openHash := s.openHash.erase e.2.2 }
  let s2 := (nbrs e.2.2).foldl (relax endP e.2.2) s1
  let s3 : AState := { s2 with events := s2.events ++ [Event.drawEv] }
  if e.2.2 = startP then s3 else
    { s3 with color := fun p => if p = e.2.2 then RED else s3.color p,
              events := s3.events ++ [Event.closedEv e.2.2] }

/-- The state returned on the successful pop of the end cell (mirrors
the `current == end` branch of the loop body). -/
def endFinishState (rfuel : Nat) (endP : Pos) (s : AState)
    (e : Ent) (rest : List Ent) : AState :=
  let s1 : AState := { s with openSet := rest, openHash := s.openHash.erase e.2.2 }
  let s2 := reconstruct_path rfuel s1 endP
  { s2 with color := fun p => if p = endP then BLUE else s2.color p,
            events := s2.events ++ [Event.endEv endP] }

/-- The state carried by either loop outcome. -/
def stepState : StepOut → AState
  | .finished _ s => s
  | .next s => s

/-- Facts about the start cell that every reachable search state keeps:
gScore 0, color Start, and no trace event ever names the start. -/
def Inv9 (startP : Pos) (s : AState) : Prop :=
  s.gScore startP = some 0 ∧ s.color startP = PINK ∧
  Event.openedEv startP ∉ s.events ∧ Event.closedEv startP ∉ s.events ∧
  Event.pathEv startP ∉ s.events ∧ Event.endEv startP ∉ s.events

/-- Facts kept while the end cell has not entered the frontier, or else
a live queue entry for the end cell. -/
def Inv10 (endP : Pos) (c0e : Color) (s : AState) : Prop :=
  (s.gScore endP = none ∧ s.color endP = c0e ∧ endP ∉ s.openHash ∧
   (∀ e ∈ s.openSet, e.2.2 ≠ endP) ∧
   Event.openedEv endP ∉ s.events ∧ Event.closedEv endP ∉ s.events) ∨
  (∃ e ∈ s.openSet, e.2.2 = endP)

/-- Reachability in the neighbour graph consumed by the search. -/
inductive Reach (nbrs : Pos → List Pos) : Pos → Pos → Prop
  | refl (p : Pos) : Reach nbrs p p
  | tail {p q r : Pos} : Reach nbrs p q → r ∈ nbrs q → Reach nbrs p r

/-- Number of grid cells whose gScore is finite. -/
def finCount (L : List Pos) (s : AState) : Nat :=
  (L.map (fun c => if (s.gScore c).isSome = true then 1 else 0)).sum

/-- Sum of all finite gScores over the grid. -/
def gSum (L : List Pos) (s : AState) : Nat :=
  (L.map (fun c => (s.gScore c).getD 0)).sum

/-- Termination measure of the main loop: infinite-gScore cells weigh
most, then the total of the finite gScores (which only ever decrease),
then the frontier size. -/
def aMeasure (L : List Pos) (s : AState) : Nat :=
  (L.length - finCount L s) * (2 * L.length + 2) + 2 * gSum L s + s.openSet.length

/-- The loop invariant for termination and failure analysis: queue
entries name in-grid, finitely-scored, reachable cells; finite gScores
exist only on grid cells and are bounded by the number of
finitely-scored cells. -/
structure SInv (nbrs : Pos → List Pos) (L : List Pos) (startP : Pos) (s : AState) : Prop where
  entMem : ∀ e ∈ s.openSet, e.2.2 ∈ L
  entSome : ∀ e ∈ s.openSet, (s.gScore e.2.2).isSome = true
  entReach : ∀ e ∈ s.openSet, Reach nbrs startP e.2.2
  gMem : ∀ p, (s.gScore p).isSome = true → p ∈ L
  gBound : ∀ p v, s.gScore p = some v → v < finCount L s

set_option maxRecDepth 400000

/-- C1: refuted on the code.  On the 12 × 12 counterexample grid with
up-to-date neighbour lists, distinct start and end, and a barrier-free
path of length 16 between them (found by BFS), `a_star_algorithm`
returns `True` but the `came_from` chain walked from the end cell back
to the start has length 18, not the BFS shortest path length 16: when a
neighbour's `g_score` improves while it is already a member of the open
set, the source updates the dictionaries but not the queued entry, so
the stale priority can delay the optimal route until after the end cell
has been popped along a longer route. -/
theorem a_star_suboptimal_on_cex :
    (a_star_algorithm 100 cexNbrs cexColor cexStart cexEnd).map
      (fun r => (r.1, chainLen 100 r.2.cameFrom cexEnd)) = some (true, 18) ∧
    bfs 100 cexNbrs cexStart cexEnd = some 16 ∧ (18 ≠ 16) := by
  refine ⟨by decide, by decide, by decide⟩

/-- The length of a list built from four `if`-guarded singletons. -/
theorem mem_ite_singleton {c : Prop} [Decidable c] {q x : Pos} :
    (q ∈ if c then [x] else ([] : List Pos)) ↔ c ∧ q = x := by
  by_cases h : c <;> simp [h]

/-- Triangle inequality for the Manhattan heuristic. -/
theorem heuristic_triangle (a b c : Pos) :
    heuristic a c ≤ heuristic a b + heuristic b c := by
  unfold heuristic
  have h1 : ((a.1 : Int) - c.1) = ((a.1 : Int) - b.1) + ((b.1 : Int) - c.1) := by ring
  have h2 : ((a.2 : Int) - c.2) = ((a.2 : Int) - b.2) + ((b.2 : Int) - c.2) := by ring
  rw [h1, h2]
  have t1 := Int.natAbs_add_le ((a.1 : Int) - b.1) ((b.1 : Int) - c.1)
  have t2 := Int.natAbs_add_le ((a.2 : Int) - b.2) ((b.2 : Int) - c.2)
  omega

/-- One orthogonal step moves Manhattan distance exactly one. -/
theorem heuristic_orthAdj {a b : Pos} (h : orthAdj a b) : heuristic a b = 1 := by
  unfold heuristic
  rcases h with ⟨h1, h2⟩ | ⟨h1, h2⟩ | ⟨h1, h2⟩ | ⟨h1, h2⟩ <;> omega

/-- C5: `heuristic` is the Manhattan distance of the two `(row, col)`
coordinates, and it never exceeds the length of any 4-directional grid
path between the two cells, in particular not the length of a shortest
such path. -/
theorem heuristic_eq_manhattan_and_admissible :
    (∀ p1 p2 : Pos, heuristic p1 p2 =
      ((p1.1 : Int) - (p2.1 : Int)).natAbs + ((p1.2 : Int) - (p2.2 : Int)).natAbs) ∧
    ∀ (l : List Pos) (a b : Pos), IsGridPath a b l → heuristic a b ≤ l.length := by
  refine ⟨fun p1 p2 => rfl, ?_⟩
  intro l
  induction l with
  | nil =>
    intro a b h
    rcases h with rfl
    unfold heuristic
    simp
  | cons q rest ih =>
    intro a b h
    rcases h with ⟨hadj, hrest⟩
    calc heuristic a b ≤ heuristic a q + heuristic q b := heuristic_triangle a q b
    _ ≤ 1 + rest.length := by
        have := heuristic_orthAdj hadj
        have := ih q b hrest
        omega
    _ = (q :: rest).length := by simp [Nat.add_comm]

/-- Witness for C5 at a concrete two-step path. -/
theorem heuristic_admissible_witness :
    IsGridPath (0, 0) (1, 1) [(0, 1), (1, 1)] ∧ heuristic (0, 0) (1, 1) ≤ 2 := by
  have h : IsGridPath (0, 0) (1, 1) [(0, 1), (1, 1)] := by
    refine ⟨Or.inr (Or.inr (Or.inl ⟨rfl, rfl⟩)), Or.inl ⟨rfl, rfl⟩, rfl⟩
  exact ⟨h, heuristic_eq_manhattan_and_admissible.2 _ _ _ h⟩

/-- C7: after `update_neighbours` runs on an in-bounds cell, the stored
list holds exactly the orthogonally adjacent cells that are inside the
grid and not currently Barrier, and it has at most four entries. -/
theorem update_neighbours_exact (n : Nat) (color : Pos → Color) (p : Pos)
    (h1 : p.1 < n) (h2 : p.2 < n) :
    (∀ q, q ∈ update_neighbours n color p ↔
      (orthAdj p q ∧ q.1 < n ∧ q.2 < n ∧ is_barrier color q = false)) ∧
    (update_neighbours n color p).length ≤ 4 := by
  constructor
  · intro q
    unfold update_neighbours
    simp only [List.mem_append, mem_ite_singleton]
    constructor
    · rintro (((⟨⟨hc, hb⟩, rfl⟩ | ⟨⟨hc, hb⟩, rfl⟩) | ⟨⟨hc, hb⟩, rfl⟩) | ⟨⟨hc, hb⟩, rfl⟩)
      · exact ⟨Or.inl ⟨rfl, rfl⟩, by omega, by omega, hb⟩
      · exact ⟨Or.inr (Or.inl ⟨by omega, rfl⟩), by omega, by omega, hb⟩
      · exact ⟨Or.inr (Or.inr (Or.inl ⟨rfl, rfl⟩)), by omega, by omega, hb⟩
      · exact ⟨Or.inr (Or.inr (Or.inr ⟨by omega, rfl⟩)), by omega, by omega, hb⟩
    · rintro ⟨hadj, hq1, hq2, hb⟩
      rcases hadj with ⟨ha1, ha2⟩ | ⟨ha1, ha2⟩ | ⟨ha1, ha2⟩ | ⟨ha1, ha2⟩
      · have hq : q = (p.1 + 1, p.2) := Prod.ext ha1 ha2
        subst hq
        exact Or.inl (Or.inl (Or.inl ⟨⟨by omega, hb⟩, rfl⟩))
      · have hq : q = (p.1 - 1, p.2) := Prod.ext (by omega) ha2
        subst hq
        exact Or.inl (Or.inl (Or.inr ⟨⟨by omega, hb⟩, rfl⟩))
      · have hq : q = (p.1, p.2 + 1) := Prod.ext ha2 ha1
        subst hq
        exact Or.inl (Or.inr ⟨⟨by omega, hb⟩, rfl⟩)
      · have hq : q = (p.1, p.2 - 1) := Prod.ext ha2 (by omega)
        subst hq
        exact Or.inr ⟨⟨by omega, hb⟩, rfl⟩
  · unfold update_neighbours
    split_ifs <;> simp

/-- Witness for C7 at the centre cell of a 3 × 3 grid with one barrier. -/
theorem update_neighbours_exact_witness :
    ((1, 1) : Pos).1 < 3 ∧ ((1, 1) : Pos).2 < 3 ∧
    (((2, 1) : Pos) ∈ update_neighbours 3
        (fun p => if p = (0, 1) then BLACK else WHITE) (1, 1) ↔
      (orthAdj (1, 1) (2, 1) ∧ 2 < 3 ∧ 1 < 3 ∧
        is_barrier (fun p => if p = (0, 1) then BLACK else WHITE) (2, 1) = false)) ∧
    (update_neighbours 3 (fun p => if p = (0, 1) then BLACK else WHITE) (1, 1)).length ≤ 4 := by
  refine ⟨by decide, by decide, ?_, ?_⟩
  · exact (update_neighbours_exact 3 _ (1, 1) (by decide) (by decide)).1 (2, 1)
  · exact (update_neighbours_exact 3 _ (1, 1) (by decide) (by decide)).2

/-- Arithmetic unfolding of `keyLt`. -/
theorem keyLt_iff {a b : Nat × Nat} :
    keyLt a b = true ↔ (a.1 < b.1 ∨ (a.1 = b.1 ∧ a.2 < b.2)) := by
  simp [keyLt]

/-- Arithmetic unfolding of the negation of `keyLt`. -/
theorem keyLt_false_iff {a b : Nat × Nat} :
    keyLt a b = false ↔ (b.1 < a.1 ∨ (b.1 = a.1 ∧ b.2 ≤ a.2)) := by
  rw [← Bool.not_eq_true, keyLt_iff]
  omega

/-- The running minimum of `better` is one of the scanned entries. -/
theorem foldl_better_mem (x : Ent) (xs : List Ent) : xs.foldl better x ∈ x :: xs := by
  induction xs generalizing x with
  | nil => simp
  | cons z zs ih =>
    simp only [List.foldl_cons]
    rcases List.mem_cons.mp (ih (better x z)) with h | h
    · rw [h]
      unfold better
      by_cases hk : keyLt (entKey z) (entKey x) = true
      · rw [if_pos hk]
        exact List.mem_cons_of_mem _ (List.mem_cons_self _ _)
      · rw [if_neg hk]
        exact List.mem_cons_self _ _
    · exact List.mem_cons_of_mem _ (List.mem_cons_of_mem _ h)

/-- No scanned entry has a key strictly below the running minimum. -/
theorem foldl_better_min (x : Ent) (xs : List Ent) :
    ∀ y ∈ x :: xs, keyLt (entKey y) (entKey (xs.foldl better x)) = false := by
  induction xs generalizing x with
  | nil =>
    intro y hy
    simp only [List.mem_singleton] at hy
    subst hy
    simp [keyLt_false_iff]
  | cons z zs ih =>
    intro y hy
    simp only [List.foldl_cons]
    have hhead := ih (better x z) (better x z) (List.mem_cons_self _ _)
    simp only [List.mem_cons] at hy
    rcases hy with rfl | rfl | hmem
    · by_cases hk : keyLt (entKey z) (entKey y) = true
      · have hbz : better y z = z := by unfold better; rw [if_pos hk]
        rw [hbz] at hhead ⊢
        rw [keyLt_iff] at hk
        rw [keyLt_false_iff] at hhead ⊢
        omega
      · have hbz : better y z = y := by unfold better; rw [if_neg hk]
        rw [hbz] at hhead ⊢
        exact hhead
    · by_cases hk : keyLt (entKey y) (entKey x) = true
      · have hbz : better x y = y := by unfold better; rw [if_pos hk]
        rw [hbz] at hhead ⊢
        exact hhead
      · have hbz : better x y = x := by unfold better; rw [if_neg hk]
        rw [hbz] at hhead ⊢
        rw [Bool.not_eq_true, keyLt_false_iff] at hk
        rw [keyLt_false_iff] at hhead ⊢
        omega
    · exact ih (better x z) y (List.mem_cons_of_mem _ hmem)

/-- `popMin` returns a member of the queue whose key no other member
strictly undercuts. -/
theorem popMin_spec {q : List Ent} {e : Ent} {rest : List Ent}
    (h : popMin q = some (e, rest)) :
    e ∈ q ∧ rest = q.erase e ∧ ∀ x ∈ q, keyLt (entKey x) (entKey e) = false := by
  match q with
  | [] => simp [popMin, findMin] at h
  | x :: xs =>
    simp only [popMin, findMin] at h
    injection h with h
    injection h with h1 h2
    subst h1
    subst h2
    exact ⟨foldl_better_mem x xs, rfl, foldl_better_min x xs⟩

/-- C2: the relaxation step of `a_star_algorithm`: the tentative gScore
of a neighbour is the expanded cell's gScore plus one; exactly when it
strictly improves on the neighbour's recorded gScore the predecessor,
gScore and fScore are rewritten and the neighbour enters the frontier
(with its sequence number) when not already a member; and the step reads
no cell color, so a neighbour already marked Closed relaxes the same
way. -/
theorem relax_characterisation (endP cur : Pos) (s : AState) (nb : Pos) (gc : Nat)
    (hg : s.gScore cur = some gc) :
    (optLt (some (gc + 1)) (s.gScore nb) = false → relax endP cur s nb = s) ∧
    (optLt (some (gc + 1)) (s.gScore nb) = true →
      (relax endP cur s nb).cameFrom nb = some cur ∧
      (relax endP cur s nb).gScore nb = some (gc + 1) ∧
      (relax endP cur s nb).fScore nb = some (gc + 1 + heuristic nb endP) ∧
      (nb ∈ s.openHash →
        (relax endP cur s nb).openSet = s.openSet ∧
        (relax endP cur s nb).openHash = s.openHash ∧
        (relax endP cur s nb).count = s.count ∧
        (relax endP cur s nb).color = s.color) ∧
      (nb ∉ s.openHash →
        (relax endP cur s nb).openSet =
          (gc + 1 + heuristic nb endP, s.count + 1, nb) :: s.openSet ∧
        (relax endP cur s nb).openHash = nb :: s.openHash ∧
        (relax endP cur s nb).count = s.count + 1 ∧
        (relax endP cur s nb).color nb = GREEN)) ∧
    (∀ c2 : Pos → Color,
      (relax endP cur { s with color := c2 } nb).cameFrom =
        (relax endP cur s nb).cameFrom ∧
      (relax endP cur { s with color := c2 } nb).gScore =
        (relax endP cur s nb).gScore ∧
      (relax endP cur { s with color := c2 } nb).fScore =
        (relax endP cur s nb).fScore ∧
      (relax endP cur { s with color := c2 } nb).openSet =
        (relax endP cur s nb).openSet ∧
      (relax endP cur { s with color := c2 } nb).openHash =
        (relax endP cur s nb).openHash ∧
      (relax endP cur { s with color := c2 } nb).count =
        (relax endP cur s nb).count) := by
  refine ⟨?_, ?_, ?_⟩
  · intro hlt
    simp [relax, hg, hlt]
  · intro hlt
    by_cases hm : nb ∈ s.openHash
    · refine ⟨?_, ?_, ?_, fun _ => ⟨?_, ?_, ?_, ?_⟩, fun hnm => absurd hm hnm⟩ <;>
        simp [relax, hg, hlt, hm]
    · refine ⟨?_, ?_, ?_, fun hmm => absurd hmm hm, fun _ => ⟨?_, ?_, ?_, ?_⟩⟩ <;>
        simp [relax, hg, hlt, hm]
  · intro c2
    by_cases hlt : optLt (some (gc + 1)) (s.gScore nb) = true
    · by_cases hm : nb ∈ s.openHash
      · refine ⟨?_, ?_, ?_, ?_, ?_, ?_⟩ <;> simp [relax, hg, hlt, hm]
      · refine ⟨?_, ?_, ?_, ?_, ?_, ?_⟩ <;> simp [relax, hg, hlt, hm]
    · refine ⟨?_, ?_, ?_, ?_, ?_, ?_⟩ <;> simp [relax, hg, hlt]

/-- Witness for C2 on the initial state of a small run: relaxing the
fresh neighbour `(1, 0)` of the start `(0, 0)` gives it gScore 1. -/
theorem relax_characterisation_witness :
    (initState (fun _ => WHITE) (0, 0) (1, 1)).gScore (0, 0) = some 0 ∧
    optLt (some 1) ((initState (fun _ => WHITE) (0, 0) (1, 1)).gScore (1, 0)) = true ∧
    (relax (1, 1) (0, 0) (initState (fun _ => WHITE) (0, 0) (1, 1)) (1, 0)).gScore (1, 0) =
      some 1 := by
  have hg : (initState (fun _ => WHITE) (0, 0) (1, 1)).gScore (0, 0) = some 0 := by decide
  have hlt : optLt (some 1)
      ((initState (fun _ => WHITE) (0, 0) (1, 1)).gScore (1, 0)) = true := by decide
  have h := (relax_characterisation (1, 1) (0, 0)
    (initState (fun _ => WHITE) (0, 0) (1, 1)) (1, 0) 0 hg).2.1 hlt
  exact ⟨hg, hlt, h.2.1⟩

/-- C3: a pure-state rendering of determinism: equal grid, start, end and
barrier configuration give equal runs (hence equal expansion traces and
final path); the frontier pop always takes an entry whose
`(fScore, count)` key is lexicographically least, so among entries of
equal fScore the one with the smaller (earlier) sequence number is
expanded first; and every insertion carries the strictly increased
sequence number `count + 1`. -/
theorem deterministic_and_tiebreak :
    (∀ fuel nbrs color0 startP endP fuel2 nbrs2 color02 startP2 endP2,
      fuel = fuel2 → nbrs = nbrs2 → color0 = color02 → startP = startP2 → endP = endP2 →
      a_star_algorithm fuel nbrs color0 startP endP =
        a_star_algorithm fuel2 nbrs2 color02 startP2 endP2) ∧
    (∀ (q : List Ent) (e : Ent) (rest : List Ent), popMin q = some (e, rest) →
      e ∈ q ∧ ∀ x ∈ q, keyLt (entKey x) (entKey e) = false) ∧
    (∀ (q : List Ent) (e : Ent) (rest : List Ent) (f c1 c2 : Nat) (p1 p2 : Pos),
      popMin q = some (e, rest) → (f, c1, p1) ∈ q → c1 < c2 → e ≠ (f, c2, p2)) ∧
    (∀ endP cur s nb,
      (relax endP cur s nb).openSet = s.openSet ∨
      ((relax endP cur s nb).count = s.count + 1 ∧ ∃ fnb,
        (relax endP cur s nb).openSet = (fnb, s.count + 1, nb) :: s.openSet)) := by
  refine ⟨?_, ?_, ?_, ?_⟩
  · intro fuel nbrs color0 startP endP fuel2 nbrs2 color02 startP2 endP2 h1 h2 h3 h4 h5
    rw [h1, h2, h3, h4, h5]
  · intro q e rest h
    have := popMin_spec h
    exact ⟨this.1, this.2.2⟩
  · intro q e rest f c1 c2 p1 p2 h hmem hlt heq
    have hspec := popMin_spec h
    have := hspec.2.2 (f, c1, p1) hmem
    rw [heq] at this
    rw [keyLt_false_iff] at this
    simp [entKey] at this
    omega
  · intro endP cur s nb
    rcases hgc : s.gScore cur with _ | gc
    · left; simp [relax, hgc]
    · by_cases hlt : optLt (some (gc + 1)) (s.gScore nb) = true
      · by_cases hm : nb ∈ s.openHash
        · left; simp [relax, hgc, hlt, hm]
        · right
          refine ⟨?_, gc + 1 + heuristic nb endP, ?_⟩ <;> simp [relax, hgc, hlt, hm]
      · left; simp [relax, hgc, hlt]

/-- Witness for C3: on a queue holding two entries of equal fScore 2 and
sequence numbers 3 and 5, the pop is not the later-inserted entry. -/
theorem deterministic_and_tiebreak_witness :
    popMin [((2 : Nat), (5 : Nat), ((0, 0) : Pos)), (2, 3, (1, 1))] =
      some ((2, 3, (1, 1)), [(2, 5, (0, 0))]) ∧ (3 : Nat) < 5 ∧
    ((2, 3, (1, 1)) : Ent) ≠ (2, 5, (0, 0)) := by
  refine ⟨by decide, by decide, ?_⟩
  exact deterministic_and_tiebreak.2.2.1
    [((2 : Nat), (5 : Nat), ((0, 0) : Pos)), (2, 3, (1, 1))]
    (2, 3, (1, 1)) [(2, 5, (0, 0))] 2 3 5 (1, 1) (0, 0)
    (by decide) (by decide) (by decide)

/-- Complete case analysis of `relax`. -/
theorem relax_cases (endP cur : Pos) (s : AState) (nb : Pos) :
    relax endP cur s nb = s ∨
    (∃ gc, s.gScore cur = some gc ∧ optLt (some (gc + 1)) (s.gScore nb) = true ∧
      ((nb ∈ s.openHash ∧ relax endP cur s nb = scoreUpd endP cur s nb gc) ∨
       (nb ∉ s.openHash ∧ relax endP cur s nb = insUpd endP cur s nb gc))) := by
  rcases hgc : s.gScore cur with _ | gc
  · left; simp [relax, hgc]
  · by_cases hlt : optLt (some (gc + 1)) (s.gScore nb) = true
    · by_cases hm : nb ∈ s.openHash
      · right
        exact ⟨gc, rfl, hlt, Or.inl ⟨hm, by simp [relax, hgc, hlt, hm, scoreUpd]⟩⟩
      · right
        exact ⟨gc, rfl, hlt, Or.inr ⟨hm, by simp [relax, hgc, hlt, hm, insUpd, scoreUpd]⟩⟩
    · left; simp [relax, hgc, hlt]

/-- Trace and frontier bookkeeping of one whole neighbour loop: the
events appended are exactly one Open marking per newly inserted cell, in
insertion order; inserted cells were not members before, are pairwise
distinct, and end up colored Open; no other cell's color changes. -/
theorem foldl_relax_trace (endP cur : Pos) (l : List Pos) (s : AState) :
    ∃ ins : List Pos,
      (l.foldl (relax endP cur) s).events = s.events ++ ins.map Event.openedEv ∧
      (l.foldl (relax endP cur) s).openHash = ins.reverse ++ s.openHash ∧
      ins.Nodup ∧ (∀ p ∈ ins, p ∉ s.openHash) ∧
      (∀ p ∈ ins, (l.foldl (relax endP cur) s).color p = GREEN) ∧
      (∀ p, p ∉ ins → (l.foldl (relax endP cur) s).color p = s.color p) := by
  induction l generalizing s with
  | nil => exact ⟨[], by simp, by simp, List.nodup_nil, by simp, by simp, fun p _ => rfl⟩
  | cons nb rest ih =>
    simp only [List.foldl_cons]
    rcases relax_cases endP cur s nb with hid | ⟨gc, hgc, hlt, ⟨hm, heq⟩ | ⟨hm, heq⟩⟩
    · rw [hid]; exact ih s
    · rw [heq]
      obtain ⟨ins, h1, h2, h3, h4, h5, h6⟩ := ih (scoreUpd endP cur s nb gc)
      exact ⟨ins, h1, h2, h3, h4, h5, h6⟩
    · rw [heq]
      obtain ⟨ins, h1, h2, h3, h4, h5, h6⟩ := ih (insUpd endP cur s nb gc)
      have hnbins : nb ∉ ins := by
        intro hcon
        exact (h4 nb hcon) (List.mem_cons_self _ _)
      refine ⟨nb :: ins, ?_, ?_, ?_, ?_, ?_, ?_⟩
      · rw [h1]
        show s.events ++ [Event.openedEv nb] ++ ins.map Event.openedEv = _
        simp [List.append_assoc]
      · rw [h2]
        show ins.reverse ++ (nb :: s.openHash) = (nb :: ins).reverse ++ s.openHash
        simp
      · exact List.nodup_cons.mpr ⟨hnbins, h3⟩
      · intro p hp
        rcases List.mem_cons.mp hp with rfl | hp2
        · exact hm
        · intro hcon
          exact (h4 p hp2) (List.mem_cons_of_mem _ hcon)
      · intro p hp
        rcases List.mem_cons.mp hp with rfl | hp2
        · rw [h6 p hnbins]
          show (if p = p then GREEN else s.color p) = GREEN
          simp
        · exact h5 p hp2
      · intro p hp
        rw [List.mem_cons, not_or] at hp
        rw [h6 p hp.2]
        show (if p = nb then GREEN else s.color p) = s.color p
        simp [hp.1]

/-- A non-final iteration evaluates to `stepNextState`. -/
theorem astarStep_next_eq {s : AState} {e : Ent} {rest : List Ent}
    (rfuel : Nat) (nbrs : Pos → List Pos) (startP endP : Pos)
    (hpop : popMin s.openSet = some (e, rest)) (hne : e.2.2 ≠ endP) :
    astarStep rfuel nbrs startP endP s = .next (stepNextState nbrs startP endP s e rest) := by
  simp only [astarStep, stepNextState, hpop]
  rw [if_neg hne]

/-- Popping the end cell evaluates to success with `endFinishState`. -/
theorem astarStep_end_eq {s : AState} {e : Ent} {rest : List Ent}
    (rfuel : Nat) (nbrs : Pos → List Pos) (startP endP : Pos)
    (hpop : popMin s.openSet = some (e, rest)) (he : e.2.2 = endP) :
    astarStep rfuel nbrs startP endP s =
      .finished true (endFinishState rfuel endP s e rest) := by
  simp only [astarStep, endFinishState, hpop]
  rw [if_pos he]

/-- An empty frontier evaluates to failure with the state unchanged. -/
theorem astarStep_empty_eq {s : AState} (rfuel : Nat) (nbrs : Pos → List Pos)
    (startP endP : Pos) (hpop : popMin s.openSet = none) :
    astarStep rfuel nbrs startP endP s = .finished false s := by
  simp only [astarStep, hpop]

/-- `popMin` yields `none` exactly on the empty queue. -/
theorem popMin_eq_none {q : List Ent} : popMin q = none ↔ q = [] := by
  cases q <;> simp [popMin, findMin]

/-- C6: one non-final loop iteration of `a_star_algorithm`, popping a
cell `cur` other than the end: the appended trace is exactly the Open
markings of the newly inserted neighbours, then one synchronous call of
the drawing callback, then (unless `cur` is the start) the Closed
marking of `cur`, all before the next pop; every newly inserted cell is
colored Open at insertion and `cur` itself ends the iteration colored
Closed when it is not the start. -/
theorem expansion_callback_and_marking (rfuel : Nat) (nbrs : Pos → List Pos)
    (startP endP : Pos) (s : AState) (e : Ent) (rest : List Ent)
    (hpop : popMin s.openSet = some (e, rest)) (hne : e.2.2 ≠ endP) :
    ∃ (s' : AState) (ins : List Pos),
      astarStep rfuel nbrs startP endP s = .next s' ∧
      s'.events = s.events ++ ins.map Event.openedEv ++ [Event.drawEv] ++
        (if e.2.2 = startP then [] else [Event.closedEv e.2.2]) ∧
      (∀ p ∈ ins, p ∉ s.openHash.erase e.2.2) ∧
      (∀ p ∈ ins, p ≠ e.2.2 → s'.color p = GREEN) ∧
      (e.2.2 ≠ startP → s'.color e.2.2 = RED) := by
  obtain ⟨ins, h1, h2, h3, h4, h5, h6⟩ := foldl_relax_trace endP e.2.2 (nbrs e.2.2)
    { s with openSet := rest, openHash := s.openHash.erase e.2.2 }
  refine ⟨stepNextState nbrs startP endP s e rest, ins,
    astarStep_next_eq rfuel nbrs startP endP hpop hne, ?_, h4, ?_, ?_⟩
  · by_cases hstart : e.2.2 = startP
    · simp only [stepNextState, if_pos hstart]
      rw [h1]
      simp
    · simp only [stepNextState, if_neg hstart]
      rw [h1]
  · intro p hp hpe
    have hg := h5 p hp
    by_cases hstart : e.2.2 = startP
    · simp only [stepNextState, if_pos hstart]
      exact hg
    · simp only [stepNextState, if_neg hstart]
      simpa [hpe] using hg
  · intro hstart
    simp only [stepNextState, if_neg hstart]
    simp

/-- A relaxation can never touch the start cell: its gScore 0 cannot be
improved. -/
theorem relax_inv9 {startP : Pos} {s : AState} (endP cur nb : Pos)
    (h : Inv9 startP s) : Inv9 startP (relax endP cur s nb) := by
  rcases relax_cases endP cur s nb with hid | ⟨gc, hgc, hlt, ⟨hm, heq⟩ | ⟨hm, heq⟩⟩
  · rw [hid]; exact h
  · rw [heq]
    have hnb : nb ≠ startP := by
      intro hcon
      subst hcon
      rw [h.1] at hlt
      simp [optLt] at hlt
    obtain ⟨h1, h2, h3, h4, h5, h6⟩ := h
    exact ⟨by simp [scoreUpd, Ne.symm hnb, h1], h2, h3, h4, h5, h6⟩
  · rw [heq]
    have hnb : nb ≠ startP := by
      intro hcon
      subst hcon
      rw [h.1] at hlt
      simp [optLt] at hlt
    obtain ⟨h1, h2, h3, h4, h5, h6⟩ := h
    refine ⟨by simp [insUpd, scoreUpd, Ne.symm hnb, h1],
      by simp [insUpd, scoreUpd, Ne.symm hnb, h2], ?_, ?_, ?_, ?_⟩ <;>
      simp [insUpd, scoreUpd, h3, h4, h5, h6, hnb, Ne.symm hnb]

/-- The whole neighbour loop never touches the start cell. -/
theorem foldl_relax_inv9 {startP : Pos} (endP cur : Pos) (l : List Pos) :
    ∀ s : AState, Inv9 startP s → Inv9 startP (l.foldl (relax endP cur) s) := by
  induction l with
  | nil => intro s h; exact h
  | cons nb rest ih =>
    intro s h
    exact ih _ (relax_inv9 endP cur nb h)

/-- Path reconstruction never touches the start cell: the explicit
`is_start` guard protects it. -/
theorem reconstruct_inv9 {startP : Pos} :
    ∀ (fuel : Nat) (s : AState) (cur : Pos), Inv9 startP s →
      Inv9 startP (reconstruct_path fuel s cur) := by
  intro fuel
  induction fuel with
  | zero => intro s cur h; exact h
  | succ fuel ih =>
    intro s cur h
    rcases hcf : s.cameFrom cur with _ | prev
    · simp only [reconstruct_path, hcf]
      exact h
    · simp only [reconstruct_path, hcf]
      by_cases hprev : is_start s.color prev = true
      · rw [if_pos hprev]
        refine ih _ prev ⟨h.1, h.2.1, ?_, ?_, ?_, ?_⟩ <;>
          simp [h.2.2.1, h.2.2.2.1, h.2.2.2.2.1, h.2.2.2.2.2]
      · rw [if_neg hprev]
        have hps : prev ≠ startP := by
          intro hcon
          subst hcon
          rw [is_start, h.2.1] at hprev
          simp at hprev
        obtain ⟨h1, h2, h3, h4, h5, h6⟩ := h
        refine ih _ prev ⟨h1, by simp [Ne.symm hps, h2], ?_, ?_, ?_, ?_⟩ <;>
          simp [h3, h4, h5, h6, hps, Ne.symm hps]

/-- One whole loop iteration never touches the start cell. -/
theorem astarStep_inv9 {startP endP : Pos} {s : AState}
    (rfuel : Nat) (nbrs : Pos → List Pos) (hse : startP ≠ endP)
    (h : Inv9 startP s) :
    Inv9 startP (stepState (astarStep rfuel nbrs startP endP s)) := by
  rcases hpop : popMin s.openSet with _ | ⟨e, rest⟩
  · rw [astarStep_empty_eq rfuel nbrs startP endP hpop]
    exact h
  · by_cases he : e.2.2 = endP
    · rw [astarStep_end_eq rfuel nbrs startP endP hpop he]
      show Inv9 startP (endFinishState rfuel endP s e rest)
      have h1 : Inv9 startP { s with openSet := rest, openHash := s.openHash.erase e.2.2 } := h
      have h2 := reconstruct_inv9 rfuel _ endP h1
      obtain ⟨g1, g2, g3, g4, g5, g6⟩ := h2
      refine ⟨g1, by simp [endFinishState, hse, g2], ?_, ?_, ?_, ?_⟩ <;>
        simp [endFinishState, g3, g4, g5, g6, hse]
    · rw [astarStep_next_eq rfuel nbrs startP endP hpop he]
      show Inv9 startP (stepNextState nbrs startP endP s e rest)
      have h1 : Inv9 startP { s with openSet := rest, openHash := s.openHash.erase e.2.2 } := h
      have h2 := foldl_relax_inv9 endP e.2.2 (nbrs e.2.2) _ h1
      obtain ⟨g1, g2, g3, g4, g5, g6⟩ := h2
      by_cases hstart : e.2.2 = startP
      · simp only [stepNextState, if_pos hstart]
        refine ⟨g1, g2, ?_, ?_, ?_, ?_⟩ <;> simp [g3, g4, g5, g6]
      · simp only [stepNextState, if_neg hstart]
        refine ⟨g1, by simp [Ne.symm hstart, g2], ?_, ?_, ?_, ?_⟩ <;>
          simp [g3, g4, g5, g6, hstart, Ne.symm hstart]

/-- The main loop never touches the start cell. -/
theorem astarLoop_inv9 {startP endP : Pos} (rfuel : Nat) (nbrs : Pos → List Pos)
    (hse : startP ≠ endP) :
    ∀ (fuel : Nat) (s : AState) (ok : Bool) (s' : AState), Inv9 startP s →
      astarLoop rfuel nbrs startP endP fuel s = some (ok, s') → Inv9 startP s' := by
  intro fuel
  induction fuel with
  | zero => intro s ok s' _ hrun; simp [astarLoop] at hrun
  | succ fuel ih =>
    intro s ok s' hinv hrun
    rcases hstep : astarStep rfuel nbrs startP endP s with ⟨ok2, s1⟩ | s1
    · simp only [astarLoop, hstep] at hrun
      have := astarStep_inv9 rfuel nbrs hse hinv
      rw [hstep] at this
      injection hrun with hrun
      injection hrun with hok hs
      subst hs
      exact this
    · simp only [astarLoop, hstep] at hrun
      have := astarStep_inv9 rfuel nbrs hse hinv
      rw [hstep] at this
      exact ih s1 ok s' this hrun

/-- C9: throughout a run on a grid whose start cell is marked Start, the
start cell is never altered: it keeps gScore 0, is never marked Open,
Closed or Path (no trace event names it), and it still satisfies
`is_start` when the run returns. -/
theorem start_cell_never_altered (fuel : Nat) (nbrs : Pos → List Pos)
    (color0 : Pos → Color) (startP endP : Pos)
    (hc : color0 startP = PINK) (hse : startP ≠ endP)
    (hs : (a_star_algorithm fuel nbrs color0 startP endP).isSome = true) :
    ((a_star_algorithm fuel nbrs color0 startP endP).get hs).2.color startP = PINK ∧
    is_start ((a_star_algorithm fuel nbrs color0 startP endP).get hs).2.color startP = true ∧
    ((a_star_algorithm fuel nbrs color0 startP endP).get hs).2.gScore startP = some 0 ∧
    Event.openedEv startP ∉
      ((a_star_algorithm fuel nbrs color0 startP endP).get hs).2.events ∧
    Event.closedEv startP ∉
      ((a_star_algorithm fuel nbrs color0 startP endP).get hs).2.events ∧
    Event.pathEv startP ∉
      ((a_star_algorithm fuel nbrs color0 startP endP).get hs).2.events := by
  have hrun : a_star_algorithm fuel nbrs color0 startP endP =
      some ((a_star_algorithm fuel nbrs color0 startP endP).get hs) :=
    (Option.some_get hs).symm
  have hinit : Inv9 startP (initState color0 startP endP) := by
    refine ⟨by simp [initState], hc, ?_, ?_, ?_, ?_⟩ <;> simp [initState]
  have hfin := astarLoop_inv9 fuel nbrs hse fuel (initState color0 startP endP)
    ((a_star_algorithm fuel nbrs color0 startP endP).get hs).1
    ((a_star_algorithm fuel nbrs color0 startP endP).get hs).2 hinit hrun
  obtain ⟨g1, g2, g3, g4, g5, g6⟩ := hfin
  exact ⟨g2, by simp [is_start, g2], g1, g3, g4, g5⟩

/-- Relaxation preserves `Inv10`: the end cell is only ever touched by
entering the frontier. -/
theorem relax_inv10 {endP : Pos} {c0e : Color} {s : AState} (cur nb : Pos)
    (h : Inv10 endP c0e s) : Inv10 endP c0e (relax endP cur s nb) := by
  rcases relax_cases endP cur s nb with hid | ⟨gc, hgc, hlt, ⟨hm, heq⟩ | ⟨hm, heq⟩⟩
  · rw [hid]; exact h
  · rw [heq]
    rcases h with ⟨h1, h2, h3, h4, h5, h6⟩ | ⟨w, hw, hwe⟩
    · have hnb : nb ≠ endP := fun hcon => h3 (hcon ▸ hm)
      exact Or.inl ⟨by simp [scoreUpd, Ne.symm hnb, h1], h2, h3, h4, h5, h6⟩
    · exact Or.inr ⟨w, hw, hwe⟩
  · rw [heq]
    by_cases hnb : nb = endP
    · subst hnb
      exact Or.inr ⟨_, List.mem_cons_self _ _, rfl⟩
    · rcases h with ⟨h1, h2, h3, h4, h5, h6⟩ | ⟨w, hw, hwe⟩
      · refine Or.inl ⟨by simp [insUpd, scoreUpd, Ne.symm hnb, h1],
          by simp [insUpd, scoreUpd, Ne.symm hnb, h2], ?_, ?_, ?_, ?_⟩
        · simp only [insUpd]
          intro hcon
          rcases List.mem_cons.mp hcon with hcon2 | hcon2
          · exact hnb hcon2.symm
          · exact h3 hcon2
        · simp only [insUpd]
          intro e he
          rcases List.mem_cons.mp he with rfl | he2
          · exact hnb
          · exact h4 e he2
        · simp [insUpd, scoreUpd, h5, hnb, Ne.symm hnb]
        · simp [insUpd, scoreUpd, h6]
      · exact Or.inr ⟨w, by simp only [insUpd]; exact List.mem_cons_of_mem _ hw, hwe⟩

/-- The whole neighbour loop preserves `Inv10`. -/
theorem foldl_relax_inv10 {endP : Pos} {c0e : Color} (cur : Pos) (l : List Pos) :
    ∀ s : AState, Inv10 endP c0e s → Inv10 endP c0e (l.foldl (relax endP cur) s) := by
  induction l with
  | nil => intro s h; exact h
  | cons nb rest ih =>
    intro s h
    exact ih _ (relax_inv10 cur nb h)

/-- A non-final iteration preserves `Inv10`. -/
theorem astarStep_inv10 {startP endP : Pos} {c0e : Color} {s s1 : AState}
    (rfuel : Nat) (nbrs : Pos → List Pos) (h : Inv10 endP c0e s)
    (hstep : astarStep rfuel nbrs startP endP s = .next s1) : Inv10 endP c0e s1 := by
  rcases hpop : popMin s.openSet with _ | ⟨e, rest⟩
  · rw [astarStep_empty_eq rfuel nbrs startP endP hpop] at hstep
    cases hstep
  · by_cases he : e.2.2 = endP
    · rw [astarStep_end_eq rfuel nbrs startP endP hpop he] at hstep
      cases hstep
    · rw [astarStep_next_eq rfuel nbrs startP endP hpop he] at hstep
      injection hstep with hstep
      subst hstep
      have hrest : rest = s.openSet.erase e := (popMin_spec hpop).2.1
      have hinv1 : Inv10 endP c0e { s with openSet := rest, openHash := s.openHash.erase e.2.2 } := by
        rcases h with ⟨h1, h2, h3, h4, h5, h6⟩ | ⟨w, hw, hwe⟩
        · refine Or.inl ⟨h1, h2, ?_, ?_, h5, h6⟩
          · show endP ∉ s.openHash.erase e.2.2
            intro hcon
            exact h3 (List.mem_of_mem_erase hcon)
          · intro f hf
            have hf2 : f ∈ s.openSet.erase e := hrest ▸ hf
            exact h4 f (List.mem_of_mem_erase hf2)
        · refine Or.inr ⟨w, ?_, hwe⟩
          show w ∈ rest
          rw [hrest]
          refine (List.mem_erase_of_ne ?_).mpr hw
          intro hcon
          rw [hcon] at hwe
          exact he hwe
      have hinv2 := foldl_relax_inv10 e.2.2 (nbrs e.2.2) _ hinv1
      by_cases hstart : e.2.2 = startP
      · simp only [stepNextState, if_pos hstart]
        rcases hinv2 with ⟨g1, g2, g3, g4, g5, g6⟩ | ⟨w, hw, hwe⟩
        · exact Or.inl ⟨g1, g2, g3, g4, by simp [g5], by simp [g6]⟩
        · exact Or.inr ⟨w, hw, hwe⟩
      · simp only [stepNextState, if_neg hstart]
        rcases hinv2 with ⟨g1, g2, g3, g4, g5, g6⟩ | ⟨w, hw, hwe⟩
        · refine Or.inl ⟨g1, by simp [Ne.symm he, g2], g3, g4, ?_, ?_⟩ <;>
            simp [g5, g6, he, Ne.symm he]
        · exact Or.inr ⟨w, hw, hwe⟩

/-- A failing loop run keeps `Inv10`, ends with an empty frontier, and
settles in the left branch of `Inv10`. -/
theorem astarLoop_inv10_false {startP endP : Pos} {c0e : Color}
    (rfuel : Nat) (nbrs : Pos → List Pos) :
    ∀ (fuel : Nat) (s : AState) (s' : AState), Inv10 endP c0e s →
      astarLoop rfuel nbrs startP endP fuel s = some (false, s') →
      s'.gScore endP = none ∧ s'.color endP = c0e ∧ endP ∉ s'.openHash ∧
      Event.openedEv endP ∉ s'.events ∧ Event.closedEv endP ∉ s'.events ∧
      s'.openSet = [] := by
  intro fuel
  induction fuel with
  | zero => intro s s' _ hrun; simp [astarLoop] at hrun
  | succ fuel ih =>
    intro s s' hinv hrun
    rcases hstep : astarStep rfuel nbrs startP endP s with ⟨ok2, s1⟩ | s1
    · rcases hpop : popMin s.openSet with _ | ⟨e, rest⟩
      · rw [astarStep_empty_eq rfuel nbrs startP endP hpop] at hstep
        injection hstep with hok hs1
        subst hok
        subst hs1
        simp only [astarLoop, astarStep_empty_eq rfuel nbrs startP endP hpop] at hrun
        injection hrun with hrun
        injection hrun with hok2 hs2
        subst hs2
        have hempty : s.openSet = [] := popMin_eq_none.mp hpop
        rcases hinv with ⟨h1, h2, h3, h4, h5, h6⟩ | ⟨w, hw, hwe⟩
        · exact ⟨h1, h2, h3, h5, h6, hempty⟩
        · rw [hempty] at hw
          cases hw
      · by_cases he : e.2.2 = endP
        · rw [astarStep_end_eq rfuel nbrs startP endP hpop he] at hstep
          injection hstep with hok hs1
          simp only [astarLoop, astarStep_end_eq rfuel nbrs startP endP hpop he] at hrun
          injection hrun with hrun
          injection hrun with hok2 hs2
          cases hok2
        · rw [astarStep_next_eq rfuel nbrs startP endP hpop he] at hstep
          cases hstep
    · simp only [astarLoop, hstep] at hrun
      exact ih s1 s' (astarStep_inv10 rfuel nbrs hinv hstep) hrun

/-- C10: whenever `a_star_algorithm` returns `False`, the end cell never
entered the frontier and was never altered: its gScore is still
infinite, no Open or Closed event names it, it is not in the membership
hash, its color is its initial color (so it still satisfies `is_end`),
and the frontier has emptied. -/
theorem failure_leaves_end_untouched (fuel : Nat) (nbrs : Pos → List Pos)
    (color0 : Pos → Color) (startP endP : Pos) (hse : startP ≠ endP)
    (hs : (a_star_algorithm fuel nbrs color0 startP endP).isSome = true)
    (hf : ((a_star_algorithm fuel nbrs color0 startP endP).get hs).1 = false) :
    ((a_star_algorithm fuel nbrs color0 startP endP).get hs).2.gScore endP = none ∧
    ((a_star_algorithm fuel nbrs color0 startP endP).get hs).2.color endP = color0 endP ∧
    is_end ((a_star_algorithm fuel nbrs color0 startP endP).get hs).2.color endP =
      is_end color0 endP ∧
    Event.openedEv endP ∉
      ((a_star_algorithm fuel nbrs color0 startP endP).get hs).2.events ∧
    Event.closedEv endP ∉
      ((a_star_algorithm fuel nbrs color0 startP endP).get hs).2.events ∧
    endP ∉ ((a_star_algorithm fuel nbrs color0 startP endP).get hs).2.openHash ∧
    ((a_star_algorithm fuel nbrs color0 startP endP).get hs).2.openSet = [] := by
  have hrun : a_star_algorithm fuel nbrs color0 startP endP =
      some ((a_star_algorithm fuel nbrs color0 startP endP).get hs) :=
    (Option.some_get hs).symm
  have hrun2 : astarLoop fuel nbrs startP endP fuel (initState color0 startP endP) =
      some (false, ((a_star_algorithm fuel nbrs color0 startP endP).get hs).2) := by
    rw [← hf]
    exact hrun
  have hinit : Inv10 endP (color0 endP) (initState color0 startP endP) := by
    refine Or.inl ⟨by simp [initState, Ne.symm hse], rfl, ?_, ?_, ?_, ?_⟩ <;>
      simp [initState, hse, Ne.symm hse]
  have hfin := astarLoop_inv10_false fuel nbrs fuel (initState color0 startP endP)
    ((a_star_algorithm fuel nbrs color0 startP endP).get hs).2 hinit hrun2
  obtain ⟨g1, g2, g3, g4, g5, g6⟩ := hfin
  exact ⟨g1, g2, by simp [is_end, g2], g4, g5, g3, g6⟩

/-- Summing a pointwise-equal map gives the same total. -/
theorem sum_map_congr {β : Type} :
    ∀ (L : List β) (f g : β → Nat), (∀ p ∈ L, f p = g p) →
      (L.map f).sum = (L.map g).sum := by
  intro L
  induction L with
  | nil => intro f g _; rfl
  | cons a rest ih =>
    intro f g h
    simp only [List.map_cons, List.sum_cons]
    rw [h a (List.mem_cons_self _ _),
      ih f g (fun p hp => h p (List.mem_cons_of_mem _ hp))]

/-- Exchanging the value of a map at one position of a duplicate-free
list shifts the total by the difference at that position. -/
theorem sum_map_update {β : Type} [DecidableEq β] :
    ∀ (L : List β), L.Nodup → ∀ (f g : β → Nat) (nb : β), nb ∈ L →
      (∀ p ∈ L, p ≠ nb → f p = g p) →
      (L.map g).sum + f nb = (L.map f).sum + g nb := by
  intro L
  induction L with
  | nil => intro _ f g nb hnb; cases hnb
  | cons a rest ih =>
    intro hnd f g nb hnb hsame
    have hnd2 := List.nodup_cons.mp hnd
    simp only [List.map_cons, List.sum_cons]
    rcases List.mem_cons.mp hnb with rfl | hmem
    · have hrest : (rest.map f).sum = (rest.map g).sum :=
        sum_map_congr rest f g (fun p hp =>
          hsame p (List.mem_cons_of_mem _ hp) (fun hcon => hnd2.1 (hcon ▸ hp)))
      omega
    · have hne : a ≠ nb := fun hcon => hnd2.1 (hcon ▸ hmem)
      have hfa : f a = g a := hsame a (List.mem_cons_self _ _) hne
      have hr := ih hnd2.2 f g nb hmem
        (fun p hp hpne => hsame p (List.mem_cons_of_mem _ hp) hpne)
      omega

/-- A map bounded by one sums to at most the length. -/
theorem sum_map_le_length {β : Type} :
    ∀ (L : List β) (f : β → Nat), (∀ p ∈ L, f p ≤ 1) → (L.map f).sum ≤ L.length := by
  intro L
  induction L with
  | nil => intro f _; simp
  | cons a rest ih =>
    intro f h
    simp only [List.map_cons, List.sum_cons, List.length_cons]
    have := h a (List.mem_cons_self _ _)
    have := ih f (fun p hp => h p (List.mem_cons_of_mem _ hp))
    omega

/-- A member contributing one makes the total positive. -/
theorem sum_map_pos {β : Type} :
    ∀ (L : List β) (f : β → Nat) (nb : β), nb ∈ L → 1 ≤ f nb → 1 ≤ (L.map f).sum := by
  intro L
  induction L with
  | nil => intro f nb hnb; cases hnb
  | cons a rest ih =>
    intro f nb hnb hf
    simp only [List.map_cons, List.sum_cons]
    rcases List.mem_cons.mp hnb with rfl | hmem
    · omega
    · have := ih f nb hmem hf
      omega

/-- Membership in the rows-first enumeration underlying `cellsList`. -/
theorem mem_cells_foldr (n : Nat) (p : Pos) :
    ∀ (rs : List Nat) (acc : List Pos),
      (p ∈ rs.foldr (fun r acc => ((List.range n).map (fun c => (r, c))) ++ acc) acc ↔
        (∃ r ∈ rs, ∃ c ∈ List.range n, p = (r, c)) ∨ p ∈ acc) := by
  intro rs
  induction rs with
  | nil => intro acc; simp
  | cons r rest ih =>
    intro acc
    simp only [List.foldr_cons, List.mem_append, List.mem_map, ih, List.mem_cons]
    constructor
    · rintro (⟨c, hc, rfl⟩ | ⟨⟨r2, hr2, c, hc, rfl⟩ | hacc⟩)
      · exact Or.inl ⟨r, Or.inl rfl, c, hc, rfl⟩
      · exact Or.inl ⟨r2, Or.inr hr2, c, hc, rfl⟩
      · exact Or.inr hacc
    · rintro (⟨r2, hr2 | hr2, c, hc, rfl⟩ | hacc)
      · exact Or.inl ⟨c, hc, by rw [hr2]⟩
      · exact Or.inr (Or.inl ⟨r2, hr2, c, hc, rfl⟩)
      · exact Or.inr (Or.inr hacc)

/-- A position lies in `cellsList n` exactly when both coordinates are
below `n`. -/
theorem mem_cellsList {n : Nat} {p : Pos} : p ∈ cellsList n ↔ p.1 < n ∧ p.2 < n := by
  unfold cellsList
  rw [mem_cells_foldr]
  simp only [List.mem_range, List.not_mem_nil, or_false]
  constructor
  · rintro ⟨r, hr, c, hc, rfl⟩
    exact ⟨hr, hc⟩
  · rintro ⟨h1, h2⟩
    exact ⟨p.1, h1, p.2, h2, rfl⟩

/-- The grid enumeration has no duplicates. -/
theorem nodup_cellsList (n : Nat) : (cellsList n).Nodup := by
  unfold cellsList
  have key : ∀ rs : List Nat, rs.Nodup →
      (rs.foldr (fun r acc => ((List.range n).map (fun c => (r, c))) ++ acc)
        ([] : List Pos)).Nodup := by
    intro rs
    induction rs with
    | nil => intro _; simp
    | cons r rest ih =>
      intro hnd
      have hnd2 := List.nodup_cons.mp hnd
      simp only [List.foldr_cons]
      refine List.Nodup.append ?_ (ih hnd2.2) ?_
      · refine List.Nodup.map ?_ (List.nodup_range n)
        intro c1 c2 hcc
        injection hcc
      · intro q hq1 hq2
        rcases List.mem_map.mp hq1 with ⟨c, _, rfl⟩
        rcases (mem_cells_foldr n (r, c) rest []).mp hq2 with ⟨r2, hr2, c2, _, hrc⟩ | hfalse
        · injection hrc with hr hc
          exact hnd2.1 (hr ▸ hr2)
        · cases hfalse
  exact key (List.range n) (List.nodup_range n)

/-- Neighbour lists computed by `update_neighbours` stay inside the grid. -/
theorem update_neighbours_subset {n : Nat} (color : Pos → Color) {p q : Pos}
    (hp : p ∈ cellsList n) (hq : q ∈ update_neighbours n color p) : q ∈ cellsList n := by
  rw [mem_cellsList] at hp ⊢
  unfold update_neighbours at hq
  simp only [List.mem_append, mem_ite_singleton] at hq
  rcases hq with (((⟨⟨hc, _⟩, rfl⟩ | ⟨⟨hc, _⟩, rfl⟩) | ⟨⟨hc, _⟩, rfl⟩) | ⟨⟨hc, _⟩, rfl⟩) <;>
    constructor <;> simp <;> omega

/-- Every `finCount` is at most the number of grid cells. -/
theorem finCount_le (L : List Pos) (s : AState) : finCount L s ≤ L.length := by
  apply sum_map_le_length
  intro p _
  by_cases h : (s.gScore p).isSome = true <;> simp [h]

/-- Effect of a single-cell gScore rewrite on `finCount`. -/
theorem finCount_update {L : List Pos} (hL : L.Nodup) {s s2 : AState} {nb : Pos}
    (hnbL : nb ∈ L) (hnew : (s2.gScore nb).isSome = true)
    (hoff : ∀ p, p ≠ nb → s2.gScore p = s.gScore p) :
    (s.gScore nb = none → finCount L s2 = finCount L s + 1) ∧
    ((s.gScore nb).isSome = true → finCount L s2 = finCount L s) := by
  have key : finCount L s + (if (s2.gScore nb).isSome = true then 1 else 0) =
      finCount L s2 + (if (s.gScore nb).isSome = true then 1 else 0) :=
    sum_map_update L hL
      (fun c => if (s2.gScore c).isSome = true then 1 else 0)
      (fun c => if (s.gScore c).isSome = true then 1 else 0) nb hnbL
      (fun p _ hpne => by simp only [hoff p hpne])
  constructor
  · intro hold
    simp only [hnew, hold, Option.isSome_none, if_true] at key
    simp at key
    omega
  · intro hold
    simp only [hnew, hold, if_true] at key
    omega

/-- Effect of a single-cell gScore rewrite on `gSum`. -/
theorem gSum_update {L : List Pos} (hL : L.Nodup) {s s2 : AState} {nb : Pos}
    (hnbL : nb ∈ L) (hoff : ∀ p, p ≠ nb → s2.gScore p = s.gScore p) :
    gSum L s2 + (s.gScore nb).getD 0 = gSum L s + (s2.gScore nb).getD 0 := by
  have key : gSum L s + (s2.gScore nb).getD 0 =
      gSum L s2 + (s.gScore nb).getD 0 :=
    sum_map_update L hL
      (fun c => (s2.gScore c).getD 0)
      (fun c => (s.gScore c).getD 0) nb hnbL
      (fun p _ hpne => by simp only [hoff p hpne])
  omega

/-- A strict-improvement rewrite of one in-grid gScore strictly shrinks
the termination measure, even if it puts one extra entry on the queue. -/
theorem aMeasure_lt_of_update {L : List Pos} (hL : L.Nodup) {s s2 : AState}
    {nb : Pos} {gc : Nat} (hnbL : nb ∈ L)
    (hg2 : s2.gScore nb = some (gc + 1))
    (hoff : ∀ p, p ≠ nb → s2.gScore p = s.gScore p)
    (hlt : optLt (some (gc + 1)) (s.gScore nb) = true)
    (hbound : gc + 1 < finCount L s2)
    (hlen : s2.openSet.length ≤ s.openSet.length + 1) :
    aMeasure L s2 < aMeasure L s := by
  have hnew : (s2.gScore nb).isSome = true := by rw [hg2]; rfl
  have hfc := finCount_update hL hnbL hnew hoff
  have hgs := gSum_update hL hnbL hoff
  have hfle : finCount L s2 ≤ L.length := finCount_le L s2
  rcases hold : s.gScore nb with _ | w
  · have hfin : finCount L s2 = finCount L s + 1 := hfc.1 hold
    rw [hold] at hgs
    rw [hg2] at hgs
    have hgs2 : gSum L s2 = gSum L s + (gc + 1) := by simpa using hgs
    have hn : gc + 1 ≤ L.length := by omega
    unfold aMeasure
    rw [hfin, hgs2]
    have hsplit : L.length - finCount L s = (L.length - (finCount L s + 1)) + 1 := by
      omega
    rw [hsplit, Nat.succ_mul (L.length - (finCount L s + 1)) (2 * L.length + 2)]
    generalize (L.length - (finCount L s + 1)) * (2 * L.length + 2) = X
    omega
  · have hfin : finCount L s2 = finCount L s := by
      refine hfc.2 ?_
      rw [hold]; rfl
    have hw : gc + 1 < w := by
      rw [hold] at hlt
      simpa [optLt] using hlt
    rw [hold] at hgs
    rw [hg2] at hgs
    have hgs2 : gSum L s2 + w = gSum L s + (gc + 1) := by simpa using hgs
    unfold aMeasure
    rw [hfin]
    generalize (L.length - finCount L s) * (2 * L.length + 2) = X
    omega

/-- Relaxation preserves the search invariant; any actual change
strictly decreases the termination measure; gScores never become
infinite again. -/
theorem relax_SInv {nbrs : Pos → List Pos} {L : List Pos} {startP : Pos}
    {s : AState} (endP : Pos) {cur nb : Pos}
    (hL : L.Nodup) (hcl : ∀ p ∈ L, ∀ q ∈ nbrs p, q ∈ L)
    (hinv : SInv nbrs L startP s) (hcur : cur ∈ L)
    (hcr : Reach nbrs startP cur) (hnb : nb ∈ nbrs cur) :
    SInv nbrs L startP (relax endP cur s nb) ∧
    (relax endP cur s nb = s ∨ aMeasure L (relax endP cur s nb) < aMeasure L s) ∧
    (∀ p, (s.gScore p).isSome = true → ((relax endP cur s nb).gScore p).isSome = true) := by
  rcases relax_cases endP cur s nb with hid | ⟨gc, hgc, hlt, hbr⟩
  · rw [hid]
    exact ⟨hinv, Or.inl rfl, fun p hp => hp⟩
  have hnbL : nb ∈ L := hcl cur hcur nb hnb
  have hgcb : gc < finCount L s := hinv.gBound cur gc hgc
  rcases hbr with ⟨hm, heq⟩ | ⟨hm, heq⟩
  · rw [heq]
    have hg2 : (scoreUpd endP cur s nb gc).gScore nb = some (gc + 1) := by
      simp [scoreUpd]
    have hoff : ∀ p, p ≠ nb → (scoreUpd endP cur s nb gc).gScore p = s.gScore p := by
      intro p hp
      simp [scoreUpd, hp]
    have hmono : ∀ p, (s.gScore p).isSome = true →
        ((scoreUpd endP cur s nb gc).gScore p).isSome = true := by
      intro p hp
      by_cases hpe : p = nb
      · subst hpe; rw [hg2]; rfl
      · rw [hoff p hpe]; exact hp
    have hnew : ((scoreUpd endP cur s nb gc).gScore nb).isSome = true := by
      rw [hg2]; rfl
    have hfc := finCount_update hL hnbL hnew hoff
    have hfmono : finCount L s ≤ finCount L (scoreUpd endP cur s nb gc) := by
      rcases hold : s.gScore nb with _ | w
      · rw [hfc.1 hold]; omega
      · rw [hfc.2 (by rw [hold]; rfl)]
    have hgB : ∀ p v, (scoreUpd endP cur s nb gc).gScore p = some v →
        v < finCount L (scoreUpd endP cur s nb gc) := by
      intro p v hpv
      by_cases hpe : p = nb
      · rw [hpe] at hpv
        rw [hg2] at hpv
        injection hpv with hv
        subst hv
        rcases hold : s.gScore nb with _ | w
        · rw [hfc.1 hold]; omega
        · have hw : gc + 1 < w := by
            rw [hold] at hlt
            simpa [optLt] using hlt
          have := hinv.gBound nb w hold
          omega
      · rw [hoff p hpe] at hpv
        have := hinv.gBound p v hpv
        omega
    refine ⟨⟨hinv.entMem, fun e he => hmono _ (hinv.entSome e he), hinv.entReach,
      ?_, hgB⟩, Or.inr ?_, hmono⟩
    · intro p hp
      by_cases hpe : p = nb
      · subst hpe; exact hnbL
      · rw [hoff p hpe] at hp
        exact hinv.gMem p hp
    · refine aMeasure_lt_of_update hL hnbL hg2 hoff hlt (hgB nb _ hg2) ?_
      show s.openSet.length ≤ s.openSet.length + 1
      omega
  · rw [heq]
    have hg2 : (insUpd endP cur s nb gc).gScore nb = some (gc + 1) := by
      simp [insUpd, scoreUpd]
    have hoff : ∀ p, p ≠ nb → (insUpd endP cur s nb gc).gScore p = s.gScore p := by
      intro p hp
      simp [insUpd, scoreUpd, hp]
    have hmono : ∀ p, (s.gScore p).isSome = true →
        ((insUpd endP cur s nb gc).gScore p).isSome = true := by
      intro p hp
      by_cases hpe : p = nb
      · subst hpe; rw [hg2]; rfl
      · rw [hoff p hpe]; exact hp
    have hnew : ((insUpd endP cur s nb gc).gScore nb).isSome = true := by
      rw [hg2]; rfl
    have hfc := finCount_update hL hnbL hnew hoff
    have hgB : ∀ p v, (insUpd endP cur s nb gc).gScore p = some v →
        v < finCount L (insUpd endP cur s nb gc) := by
      intro p v hpv
      by_cases hpe : p = nb
      · rw [hpe] at hpv
        rw [hg2] at hpv
        injection hpv with hv
        subst hv
        rcases hold : s.gScore nb with _ | w
        · rw [hfc.1 hold]; omega
        · have hw : gc + 1 < w := by
            rw [hold] at hlt
            simpa [optLt] using hlt
          have := hinv.gBound nb w hold
          have hfin := hfc.2 (by rw [hold]; rfl)
          omega
      · rw [hoff p hpe] at hpv
        have := hinv.gBound p v hpv
        have hfmono : finCount L s ≤ finCount L (insUpd endP cur s nb gc) := by
          rcases hold : s.gScore nb with _ | w
          · rw [hfc.1 hold]; omega
          · rw [hfc.2 (by rw [hold]; rfl)]
        omega
    have hentry : (insUpd endP cur s nb gc).openSet =
        (gc + 1 + heuristic nb endP, s.count + 1, nb) :: s.openSet := rfl
    refine ⟨⟨?_, ?_, ?_, ?_, hgB⟩, Or.inr ?_, hmono⟩
    · intro e he
      rw [hentry] at he
      rcases List.mem_cons.mp he with rfl | he2
      · exact hnbL
      · exact hinv.entMem e he2
    · intro e he
      rw [hentry] at he
      rcases List.mem_cons.mp he with rfl | he2
      · exact hnew
      · exact hmono _ (hinv.entSome e he2)
    · intro e he
      rw [hentry] at he
      rcases List.mem_cons.mp he with rfl | he2
      · exact Reach.tail hcr hnb
      · exact hinv.entReach e he2
    · intro p hp
      by_cases hpe : p = nb
      · subst hpe; exact hnbL
      · rw [hoff p hpe] at hp
        exact hinv.gMem p hp
    · refine aMeasure_lt_of_update hL hnbL hg2 hoff hlt (hgB nb _ hg2) ?_
      rw [hentry]
      simp

/-- The whole neighbour loop preserves the invariant; any change lowers
the measure. -/
theorem foldl_relax_SInv {nbrs : Pos → List Pos} {L : List Pos} {startP : Pos}
    (hL : L.Nodup) (hcl : ∀ p ∈ L, ∀ q ∈ nbrs p, q ∈ L)
    (endP : Pos) {cur : Pos} (hcur : cur ∈ L) (hcr : Reach nbrs startP cur) :
    ∀ (l : List Pos) (s : AState), SInv nbrs L startP s → (∀ x ∈ l, x ∈ nbrs cur) →
      SInv nbrs L startP (l.foldl (relax endP cur) s) ∧
      (l.foldl (relax endP cur) s = s ∨
        aMeasure L (l.foldl (relax endP cur) s) < aMeasure L s) := by
  intro l
  induction l with
  | nil => intro s hinv _; exact ⟨hinv, Or.inl rfl⟩
  | cons nb rest ih =>
    intro s hinv hall
    simp only [List.foldl_cons]
    have h1 := relax_SInv endP hL hcl hinv hcur hcr
      (hall nb (List.mem_cons_self _ _))
    have h2 := ih (relax endP cur s nb) h1.1
      (fun x hx => hall x (List.mem_cons_of_mem _ hx))
    refine ⟨h2.1, ?_⟩
    rcases h1.2.1 with he1 | hlt1
    · rw [he1] at h2 ⊢
      exact h2.2
    · rcases h2.2 with he2 | hlt2
      · rw [he2]
        exact Or.inr hlt1
      · exact Or.inr (lt_trans hlt2 hlt1)

/-- A failing outcome leaves the state untouched with an empty frontier. -/
theorem astarStep_false_char {s s' : AState} {rfuel : Nat} {nbrs : Pos → List Pos}
    {startP endP : Pos}
    (hstep : astarStep rfuel nbrs startP endP s = .finished false s') :
    s' = s ∧ s.openSet = [] := by
  rcases hpop : popMin s.openSet with _ | ⟨e, rest⟩
  · rw [astarStep_empty_eq rfuel nbrs startP endP hpop] at hstep
    injection hstep with _ hs
    exact ⟨hs.symm, popMin_eq_none.mp hpop⟩
  · by_cases he : e.2.2 = endP
    · rw [astarStep_end_eq rfuel nbrs startP endP hpop he] at hstep
      injection hstep with hok
      cases hok
    · rw [astarStep_next_eq rfuel nbrs startP endP hpop he] at hstep
      cases hstep

/-- Success pops the end cell, whose queue entry certifies that the end
is reachable from the start. -/
theorem astarStep_true_reach {nbrs : Pos → List Pos} {L : List Pos}
    {startP endP : Pos} {s s' : AState} {rfuel : Nat}
    (hinv : SInv nbrs L startP s)
    (hstep : astarStep rfuel nbrs startP endP s = .finished true s') :
    Reach nbrs startP endP := by
  rcases hpop : popMin s.openSet with _ | ⟨e, rest⟩
  · rw [astarStep_empty_eq rfuel nbrs startP endP hpop] at hstep
    injection hstep with hok
    cases hok
  · by_cases he : e.2.2 = endP
    · exact he ▸ hinv.entReach e (popMin_spec hpop).1
    · rw [astarStep_next_eq rfuel nbrs startP endP hpop he] at hstep
      cases hstep

/-- The continuing outcome does not depend on the reconstruction fuel. -/
theorem astarStep_next_rfuel {r1 : Nat} (r2 : Nat) {nbrs : Pos → List Pos}
    {startP endP : Pos} {s s1 : AState}
    (hstep : astarStep r1 nbrs startP endP s = .next s1) :
    astarStep r2 nbrs startP endP s = .next s1 := by
  rcases hpop : popMin s.openSet with _ | ⟨e, rest⟩
  · rw [astarStep_empty_eq r1 nbrs startP endP hpop] at hstep
    cases hstep
  · by_cases he : e.2.2 = endP
    · rw [astarStep_end_eq r1 nbrs startP endP hpop he] at hstep
      cases hstep
    · rw [astarStep_next_eq r1 nbrs startP endP hpop he] at hstep
      injection hstep with hs
      rw [astarStep_next_eq r2 nbrs startP endP hpop he, hs]

/-- A continuing iteration preserves the invariant and strictly lowers
the measure. -/
theorem astarStep_SInv_next {nbrs : Pos → List Pos} {L : List Pos}
    {startP endP : Pos} {s s1 : AState} {rfuel : Nat}
    (hL : L.Nodup) (hcl : ∀ p ∈ L, ∀ q ∈ nbrs p, q ∈ L)
    (hinv : SInv nbrs L startP s)
    (hstep : astarStep rfuel nbrs startP endP s = .next s1) :
    SInv nbrs L startP s1 ∧ aMeasure L s1 < aMeasure L s := by
  rcases hpop : popMin s.openSet with _ | ⟨e, rest⟩
  · rw [astarStep_empty_eq rfuel nbrs startP endP hpop] at hstep
    cases hstep
  · by_cases he : e.2.2 = endP
    · rw [astarStep_end_eq rfuel nbrs startP endP hpop he] at hstep
      cases hstep
    · rw [astarStep_next_eq rfuel nbrs startP endP hpop he] at hstep
      injection hstep with hs
      subst hs
      obtain ⟨hemem, hrest, -⟩ := popMin_spec hpop
      have hinvP : SInv nbrs L startP { s with openSet := rest, openHash := s.openHash.erase e.2.2 } := by
        constructor
        · intro f hf
          exact hinv.entMem f (List.mem_of_mem_erase (hrest ▸ hf))
        · intro f hf
          exact hinv.entSome f (List.mem_of_mem_erase (hrest ▸ hf))
        · intro f hf
          exact hinv.entReach f (List.mem_of_mem_erase (hrest ▸ hf))
        · exact hinv.gMem
        · exact hinv.gBound
      have hlen : rest.length = s.openSet.length - 1 := by
        rw [hrest]
        exact List.length_erase_of_mem hemem
      have hpos : 0 < s.openSet.length :=
        List.length_pos.mpr (List.ne_nil_of_mem hemem)
      have hms1 : aMeasure L { s with openSet := rest, openHash := s.openHash.erase e.2.2 } < aMeasure L s := by
        have hfin : finCount L { s with openSet := rest, openHash := s.openHash.erase e.2.2 } = finCount L s := rfl
        have hgs : gSum L { s with openSet := rest, openHash := s.openHash.erase e.2.2 } = gSum L s := rfl
        unfold aMeasure
        rw [hfin, hgs]
        generalize (L.length - finCount L s) * (2 * L.length + 2) = X
        show X + 2 * gSum L s + rest.length < X + 2 * gSum L s + s.openSet.length
        omega
      have hcur : e.2.2 ∈ L := hinv.entMem e hemem
      have hcr : Reach nbrs startP e.2.2 := hinv.entReach e hemem
      have hf := foldl_relax_SInv hL hcl endP hcur hcr (nbrs e.2.2) _ hinvP
        (fun x hx => hx)
      have hmf : aMeasure L ((nbrs e.2.2).foldl (relax endP e.2.2) { s with openSet := rest, openHash := s.openHash.erase e.2.2 }) < aMeasure L s := by
        rcases hf.2 with heq2 | hlt2
        · rw [heq2]
          exact hms1
        · exact lt_trans hlt2 hms1
      by_cases hstart : e.2.2 = startP
      · simp only [stepNextState, if_pos hstart]
        exact ⟨⟨hf.1.entMem, hf.1.entSome, hf.1.entReach, hf.1.gMem, hf.1.gBound⟩, hmf⟩
      · simp only [stepNextState, if_neg hstart]
        exact ⟨⟨hf.1.entMem, hf.1.entSome, hf.1.entReach, hf.1.gMem, hf.1.gBound⟩, hmf⟩

/-- With no path to the end, the loop always halts with failure given
fuel one beyond the measure, for every reconstruction fuel. -/
theorem astarLoop_term {nbrs : Pos → List Pos} {L : List Pos} {startP endP : Pos}
    (hL : L.Nodup) (hcl : ∀ p ∈ L, ∀ q ∈ nbrs p, q ∈ L)
    (hnr : ¬ Reach nbrs startP endP) :
    ∀ (k : Nat) (s : AState), aMeasure L s ≤ k → SInv nbrs L startP s →
      ∃ s' : AState, ∀ rfuel : Nat,
        astarLoop rfuel nbrs startP endP (k + 1) s = some (false, s') := by
  intro k
  induction k with
  | zero =>
    intro s hm hinv
    have hlen : s.openSet.length = 0 := by
      unfold aMeasure at hm
      omega
    have hempty : s.openSet = [] := List.length_eq_zero.mp hlen
    refine ⟨s, fun rfuel => ?_⟩
    have hpop : popMin s.openSet = none := popMin_eq_none.mpr hempty
    simp only [astarLoop, astarStep_empty_eq rfuel nbrs startP endP hpop]
  | succ k ih =>
    intro s hm hinv
    rcases hstep : astarStep 0 nbrs startP endP s with ⟨ok, s1⟩ | s1
    · cases ok
      · obtain ⟨hs1, hempty⟩ := astarStep_false_char hstep
        refine ⟨s, fun rfuel => ?_⟩
        have hpop : popMin s.openSet = none := popMin_eq_none.mpr hempty
        simp only [astarLoop, astarStep_empty_eq rfuel nbrs startP endP hpop]
      · exact absurd (astarStep_true_reach hinv hstep) hnr
    · have hd := astarStep_SInv_next hL hcl hinv hstep
      have hm1 : aMeasure L s1 ≤ k := by
        have := hd.2
        omega
      obtain ⟨s', hs'⟩ := ih s1 hm1 hd.1
      refine ⟨s', fun rfuel => ?_⟩
      have hstepR := astarStep_next_rfuel rfuel hstep
      simp only [astarLoop, hstepR]
      exact hs' rfuel

/-- A continuing iteration appends no Path event. -/
theorem stepNext_events {nbrs : Pos → List Pos} {startP endP : Pos}
    {s : AState} {e : Ent} {rest : List Ent} (p : Pos)
    (hmem : Event.pathEv p ∈ (stepNextState nbrs startP endP s e rest).events) :
    Event.pathEv p ∈ s.events := by
  obtain ⟨ins, h1, -, -, -, -, -⟩ := foldl_relax_trace endP e.2.2 (nbrs e.2.2)
    { s with openSet := rest, openHash := s.openHash.erase e.2.2 }
  by_cases hstart : e.2.2 = startP
  · simp only [stepNextState, if_pos hstart] at hmem
    rw [h1] at hmem
    simpa using hmem
  · simp only [stepNextState, if_neg hstart] at hmem
    rw [h1] at hmem
    simpa using hmem

/-- A failing run ends with an empty frontier and never marks any cell
as Path. -/
theorem astarLoop_false_no_path {rfuel : Nat} {nbrs : Pos → List Pos}
    {startP endP : Pos} :
    ∀ (fuel : Nat) (s s' : AState),
      astarLoop rfuel nbrs startP endP fuel s = some (false, s') →
      (∀ p : Pos, Event.pathEv p ∉ s.events) →
      s'.openSet = [] ∧ ∀ p : Pos, Event.pathEv p ∉ s'.events := by
  intro fuel
  induction fuel with
  | zero => intro s s' hrun; simp [astarLoop] at hrun
  | succ fuel ih =>
    intro s s' hrun hev
    rcases hstep : astarStep rfuel nbrs startP endP s with ⟨ok, s1⟩ | s1
    · simp only [astarLoop, hstep] at hrun
      injection hrun with hrun
      injection hrun with hok hs
      subst hok
      subst hs
      obtain ⟨hs1, hempty⟩ := astarStep_false_char hstep
      subst hs1
      exact ⟨hempty, hev⟩
    · simp only [astarLoop, hstep] at hrun
      refine ih s1 s' hrun ?_
      intro p hp
      rcases hpop : popMin s.openSet with _ | ⟨e, rest⟩
      · rw [astarStep_empty_eq rfuel nbrs startP endP hpop] at hstep
        cases hstep
      · by_cases he : e.2.2 = endP
        · rw [astarStep_end_eq rfuel nbrs startP endP hpop he] at hstep
          cases hstep
        · rw [astarStep_next_eq rfuel nbrs startP endP hpop he] at hstep
          injection hstep with hs
          subst hs
          exact hev p (stepNext_events p hp)

/-- C4: when no barrier-free path exists in the up-to-date neighbour
graph, the frontier eventually empties and the run returns `False`
without any path reconstruction: there is a fuel making the algorithm
halt with `False`, an empty frontier, and not a single Path marking in
the whole trace. -/
theorem no_path_means_failure (n : Nat) (color0 : Pos → Color) (startP endP : Pos)
    (h1 : startP.1 < n) (h2 : startP.2 < n)
    (hnr : ¬ Reach (fun p => update_neighbours n color0 p) startP endP) :
    ∃ (fuel : Nat) (s' : AState),
      a_star_algorithm fuel (fun p => update_neighbours n color0 p) color0 startP endP =
        some (false, s') ∧ s'.openSet = [] ∧ ∀ p : Pos, Event.pathEv p ∉ s'.events := by
  have hL := nodup_cellsList n
  have hcl : ∀ p ∈ cellsList n, ∀ q ∈ (fun p => update_neighbours n color0 p) p,
      q ∈ cellsList n := by
    intro p hp q hq
    exact update_neighbours_subset color0 hp hq
  have hsL : startP ∈ cellsList n := mem_cellsList.mpr ⟨h1, h2⟩
  have hinit : SInv (fun p => update_neighbours n color0 p) (cellsList n) startP
      (initState color0 startP endP) := by
    constructor
    · intro e he
      simp only [initState, List.mem_singleton] at he
      subst he
      exact hsL
    · intro e he
      simp only [initState, List.mem_singleton] at he
      subst he
      simp [initState]
    · intro e he
      simp only [initState, List.mem_singleton] at he
      subst he
      exact Reach.refl startP
    · intro p hp
      by_cases hpe : p = startP
      · subst hpe; exact hsL
      · exfalso
        simp [initState, hpe] at hp
    · intro p v hpv
      by_cases hpe : p = startP
      · rw [hpe] at hpv
        simp only [initState, if_pos rfl] at hpv
        injection hpv with hv
        subst hv
        refine sum_map_pos _ _ startP hsL ?_
        simp [initState]
      · simp [initState, hpe] at hpv
  obtain ⟨s', hs'⟩ := astarLoop_term hL hcl hnr
    (aMeasure (cellsList n) (initState color0 startP endP))
    (initState color0 startP endP) le_rfl hinit
  have hrun := hs' (aMeasure (cellsList n) (initState color0 startP endP) + 1)
  have hfinal := astarLoop_false_no_path _ _ _ hrun (by simp [initState])
  exact ⟨aMeasure (cellsList n) (initState color0 startP endP) + 1, s', hrun,
    hfinal.1, hfinal.2⟩

/-- A start cell with an empty neighbour list reaches only itself. -/
theorem not_reach_of_no_nbrs {nbrs : Pos → List Pos} {startP endP : Pos}
    (h : nbrs startP = []) (hne : startP ≠ endP) : ¬ Reach nbrs startP endP := by
  intro hr
  have key : ∀ q : Pos, Reach nbrs startP q → q = startP := by
    intro q hq
    induction hq with
    | refl => rfl
    | tail hr2 hm ih =>
      rw [ih] at hm
      rw [h] at hm
      cases hm
  exact hne (key endP hr).symm

/-- C8: neighbour recomputation is idempotent: with no intervening edits,
running `update_neighbours` on a cell twice leaves exactly the state
produced by running it once. -/
theorem update_neighbours_idempotent (g : GridState) (p : Pos) :
    nodeUpdateNeighbours (nodeUpdateNeighbours g p) p = nodeUpdateNeighbours g p := by
  cases g with
  | mk totalRows color neighbours =>
    unfold nodeUpdateNeighbours
    simp only [GridState.mk.injEq, true_and]
    funext q
    by_cases h : q = p <;> simp [h]

/-- Witness for C4 on the enclosed grid: the start has no passable
neighbour, so no path exists and the run fails cleanly. -/
theorem no_path_means_failure_witness :
    ((0, 0) : Pos).1 < 2 ∧ ((0, 0) : Pos).2 < 2 ∧
    ¬ Reach (fun p => update_neighbours 2 wEncColor p) (0, 0) (1, 1) ∧
    (∃ (fuel : Nat) (s' : AState),
      a_star_algorithm fuel (fun p => update_neighbours 2 wEncColor p) wEncColor
        (0, 0) (1, 1) = some (false, s') ∧ s'.openSet = [] ∧
      ∀ p : Pos, Event.pathEv p ∉ s'.events) := by
  have hnr : ¬ Reach (fun p => update_neighbours 2 wEncColor p) (0, 0) (1, 1) :=
    not_reach_of_no_nbrs (by decide) (by decide)
  exact ⟨by decide, by decide, hnr,
    no_path_means_failure 2 wEncColor (0, 0) (1, 1) (by decide) (by decide) hnr⟩

/-- Witness for C6 on the first iteration of a 2 × 2 run: the start is
popped, its neighbours processed, the callback drawn once. -/
theorem expansion_callback_and_marking_witness :
    popMin (initState w2color (0, 0) (1, 1)).openSet = some ((0, 0, (0, 0)), []) ∧
    ((0, 0, (0, 0)) : Ent).2.2 ≠ ((1, 1) : Pos) ∧
    (∃ (s' : AState) (ins : List Pos),
      astarStep 5 w2nbrs (0, 0) (1, 1) (initState w2color (0, 0) (1, 1)) = .next s' ∧
      s'.events = (initState w2color (0, 0) (1, 1)).events ++ ins.map Event.openedEv ++
        [Event.drawEv] ++
        (if ((0, 0, (0, 0)) : Ent).2.2 = (0, 0) then []
          else [Event.closedEv ((0, 0, (0, 0)) : Ent).2.2]) ∧
      (∀ p ∈ ins, p ∉ (initState w2color (0, 0) (1, 1)).openHash.erase
        ((0, 0, (0, 0)) : Ent).2.2) ∧
      (∀ p ∈ ins, p ≠ ((0, 0, (0, 0)) : Ent).2.2 → s'.color p = GREEN) ∧
      (((0, 0, (0, 0)) : Ent).2.2 ≠ (0, 0) →
        s'.color ((0, 0, (0, 0)) : Ent).2.2 = RED)) := by
  refine ⟨by decide, by decide, ?_⟩
  exact expansion_callback_and_marking 5 w2nbrs (0, 0) (1, 1)
    (initState w2color (0, 0) (1, 1)) (0, 0, (0, 0)) [] (by decide) (by decide)

/-- Witness for C9 on a successful 2 × 2 run: the start cell keeps its
Start color to the end. -/
theorem start_cell_never_altered_witness :
    w2color (0, 0) = PINK ∧ ((0, 0) : Pos) ≠ ((1, 1) : Pos) ∧
    (a_star_algorithm 10 w2nbrs w2color (0, 0) (1, 1)).isSome = true ∧
    ((a_star_algorithm 10 w2nbrs w2color (0, 0) (1, 1)).get
      (by decide)).2.color (0, 0) = PINK := by
  refine ⟨by decide, by decide, by decide, ?_⟩
  exact (start_cell_never_altered 10 w2nbrs w2color (0, 0) (1, 1)
    (by decide) (by decide) (by decide)).1

/-- Witness for C10 on the enclosed grid: the run fails and the end cell
still holds gScore infinity. -/
theorem failure_leaves_end_untouched_witness :
    ((0, 0) : Pos) ≠ ((1, 1) : Pos) ∧
    (a_star_algorithm 5 wEncNbrs wEncColor (0, 0) (1, 1)).isSome = true ∧
    ((a_star_algorithm 5 wEncNbrs wEncColor (0, 0) (1, 1)).get (by decide)).1 = false ∧
    ((a_star_algorithm 5 wEncNbrs wEncColor (0, 0) (1, 1)).get
      (by decide)).2.gScore (1, 1) = none := by
  refine ⟨by decide, by decide, by decide, ?_⟩
  exact (failure_leaves_end_untouched 5 wEncNbrs wEncColor (0, 0) (1, 1)
    (by decide) (by decide) (by decide)).1

end AStar
